import Mathlib

/-!
# mewn `lib/http-fs.go`: flat resource namespace exposed as a file tree

Shallow embedding of `lib/http-fs.go` and proofs of the properties its
specification states about it.

Modelling conventions.

* Go `string` is Lean `String`; `==` on strings is `decide (a = b)` and
  `strings.HasPrefix` compares the leading characters.
* A Go slice that may be `nil` is `Option (List α)`: `none` is the `nil`
  slice, `some []` the empty non-nil slice `[]string{}`.
* A Go `error` result is `Option GoError` (`none` is `nil`).
* Methods with a pointer receiver return the updated receiver next to their
  results (explicit state passing).
* A call that aborts the process (`MustBytes` on a path the resource group
  cannot serve, a nil dereference) makes the whole method return `none`.
* `int`, `int64` are `Int`; the one place where `int64` arithmetic can wrap
  (`bytes.Reader.Seek`) wraps explicitly.
-/

namespace Mewn

/-! ## Values from the Go standard library -/

/-- Go `error` values produced or forwarded by the file. -/
inductive GoError where
  /-- The value `os.ErrNotExist`. -/
  | ErrNotExist
  /-- The value `io.EOF`, the end-of-content signal of a reader. -/
  | EOF
  /-- The result of `errors.New(msg)`. -/
  | New (msg : String)
  deriving DecidableEq

/-- Length of a possibly-nil slice: Go `len(s)`, which is `0` on `nil`. -/
def len {α : Type} : Option (List α) → Nat
  | none => 0
  | some l => l.length

/-- The elements a `for ... range s` loop visits, none for the `nil` slice. -/
def elems {α : Type} : Option (List α) → List α
  | none => []
  | some l => l

/-- Go `strings.HasPrefix(s, pre)`:
`len(s) >= len(pre) && s[:len(pre)] == pre`. -/
def HasPrefix (s pre : String) : Bool :=
  decide (s.data.length ≥ pre.data.length) && (s.data.take pre.data.length == pre.data)

/-- Wrap-around of a mathematical integer into the `int64` range. -/
def int64 (x : Int) : Int := (x + 2 ^ 63) % 2 ^ 64 - 2 ^ 63

/-- Go builtin `copy(dst, src)`: overwrites the first `min(len dst, len src)`
bytes of `dst` and returns that count (with the new contents of `dst`). -/
def copy (dst src : List UInt8) : List UInt8 × Int :=
  let n := min dst.length src.length
  (src.take n ++ dst.drop n, (n : Int))

/-- Go standard library `bytes.Reader`: the byte slice `s` being read and the
current reading index `i` (the rune bookkeeping field, which `Read`, `Seek`
and `Size` only reset, is left out). -/
structure Reader where
  s : List UInt8
  i : Int

/-- Go `bytes.NewReader(b)`. -/
def NewReader (b : List UInt8) : Reader := ⟨b, 0⟩

/-- Go `(*bytes.Reader).Read`: at or past the end it returns `0, EOF`;
otherwise it copies `s[i:]` into `b` and advances `i` by the count. -/
def Reader.Read (r : Reader) (b : List UInt8) :
    Reader × List UInt8 × Int × Option GoError :=
  if r.i ≥ (r.s.length : Int) then (r, b, 0, some GoError.EOF)
  else
    let cp := copy b (r.s.drop r.i.toNat)
    ({ r with i := r.i + cp.2 }, cp.1, cp.2, none)

/-- Go `(*bytes.Reader).Seek`; whence `0`, `1`, `2` are `SeekStart`,
`SeekCurrent`, `SeekEnd`. -/
def Reader.Seek (r : Reader) (offset : Int) (whence : Int) :
    Reader × Int × Option GoError :=
  let abs : Option Int :=
    if whence = 0 then some offset
    else if whence = 1 then some (int64 (r.i + offset))
    else if whence = 2 then some (int64 ((r.s.length : Int) + offset))
    else none
  match abs with
  | none => (r, 0, some (GoError.New "bytes.Reader.Seek: invalid whence"))
  | some a =>
    if a < 0 then (r, 0, some (GoError.New "bytes.Reader.Seek: negative position"))
    else ({ r with i := a }, a, none)

/-- Go `(*bytes.Reader).Size`: the length of the underlying slice. -/
def Reader.Size (r : Reader) : Int := (r.s.length : Int)

/-- Go standard library functions `path.Dir` and `path.Base`, which lie outside
the repository; every result below holds for whatever they compute. -/
structure PathPkg where
  Dir : String → String
  Base : String → String

/-! ## The resource group -/

/-- Modelled from the spec: the resource group `FileGroup`, whose declaration is
not part of `lib/http-fs.go`. It supplies `Entries()`, the flat namespace as a
sequence of path strings, and `MustBytes(path)`, the bytes stored for a path;
`MustBytes` aborts the process when it cannot produce them, which is `none`
here. -/
structure FileGroup where
  Entries : List String
  MustBytes : String → Option (List UInt8)

/-! ## `lib/http-fs.go` -/

/-- Go `type dir struct`; the field `prefix` is spelled `pfx`. -/
structure dir where
  group : FileGroup
  pfx : String

/-- Go `type file struct`; the field `exists` is spelled `exists_`. -/
structure file where
  name : String
  dir : dir
  buffer : Option Reader
  children : Option (List String)
  exists_ : Bool

/-- The error `errors.New("can't read from a directory")` of `file.open`. -/
def errIsDirectory : GoError := GoError.New "can't read from a directory"

/-- The error `errors.New("not a directory")` of `file.Readdir`. -/
def errNotDirectory : GoError := GoError.New "not a directory"

/-- One iteration of the loop of `list` on entry `e`: the pair is
`(exists, children)`. -/
def list.step (pfx : String) (acc : Bool × List String) (e : String) :
    Bool × List String :=
  ((if e == pfx then true else acc.1),
   (if HasPrefix e (pfx ++ "/") then acc.2 ++ [e] else acc.2))

/-- Go `func list(d *dir) (bool, []string)`. -/
def list (d : dir) : Bool × Option (List String) :=
  let all := d.group.Entries
  let st := all.foldl (list.step d.pfx) (false, [])
  if !st.1 && st.2.length == 0 then (false, none)
  else (st.1, some st.2)

/-- Go `func (f *FileGroup) Open(name string) (*file, error)`. -/
def FileGroup.Open (P : PathPkg) (f : FileGroup) (name : String) :
    Option file × Option GoError :=
  let r := list ⟨f, name⟩
  match r.2 with
  | none => (none, some GoError.ErrNotExist)
  | some children => (some ⟨name, ⟨f, P.Dir name⟩, none, some children, r.1⟩, none)

/-- Go `func (f *file) open() error`. -/
def file.open (f : file) : Option (file × Option GoError) :=
  if !f.exists_ then some (f, some errIsDirectory)
  else
    match f.buffer with
    | some _ => some (f, none)
    | none =>
      match f.dir.group.MustBytes f.name with
      | none => none
      | some b => some ({ f with buffer := some (NewReader b) }, none)

/-- Go `func (f *file) Read(p []byte) (int, error)`; the second component is
the contents of `p` after the call. -/
def file.Read (f : file) (p : List UInt8) :
    Option (file × List UInt8 × Int × Option GoError) :=
  match f.open with
  | none => none
  | some (f1, some err) => some (f1, p, 0, some err)
  | some (f1, none) =>
    match f1.buffer with
    | none => none
    | some r =>
      let res := r.Read p
      some ({ f1 with buffer := some res.1 }, res.2.1, res.2.2.1, res.2.2.2)

/-- Go `func (f *file) Seek(offset int64, whence int) (int64, error)`. -/
def file.Seek (f : file) (offset : Int) (whence : Int) :
    Option (file × Int × Option GoError) :=
  match f.open with
  | none => none
  | some (f1, some err) => some (f1, 0, some err)
  | some (f1, none) =>
    match f1.buffer with
    | none => none
    | some r =>
      let res := r.Seek offset whence
      some ({ f1 with buffer := some res.1 }, res.2.1, res.2.2)

/-- Go `func (f *file) Close() error`. -/
def file.Close (f : file) : file × Option GoError :=
  ({ f with buffer := none }, none)

/-- Go `func (f *file) Stat() (os.FileInfo, error)`. -/
def file.Stat (f : file) : file × Option GoError := (f, none)

/-- Go `func (f *file) IsDir() bool`. -/
def file.IsDir (f : file) : Bool :=
  f.children != none && decide (len f.children > 0)

/-- Go `func (f *file) Readdir(count int) ([]os.FileInfo, error)`. -/
def file.Readdir (f : file) (_count : Int) : Option (List file) × Option GoError :=
  if !f.IsDir then (none, some errNotDirectory)
  else
    (some ((elems f.children).map (fun c =>
      let r := list ⟨f.dir.group, c⟩
      (⟨c, ⟨f.dir.group, f.name⟩, none, r.2, r.1⟩ : file))), none)

/-- Go `func (f *file) Name() string`. -/
def file.Name (P : PathPkg) (f : file) : String := P.Base f.name

/-- Go `func (f *file) Size() int64`. -/
def file.Size (f : file) : Option (file × Int) :=
  if f.IsDir then some (f, 0)
  else
    match f.open with
    | none => none
    | some (f1, some _) => some (f1, -1)
    | some (f1, none) =>
      match f1.buffer with
      | none => none
      | some r => some (f1, r.Size)

/-- The entries of the namespace `N` that start with `p` followed by the
separator, in the order of `N`. -/
def descendants (N : List String) (p : String) : List String :=
  N.filter (fun e => HasPrefix e (p ++ "/"))

/-- The property of C4 in the claim's words: `c` is `p`, then the separator,
then a remainder that holds no further separator. -/
def immediateChild (p c : String) : Bool :=
  HasPrefix c (p ++ "/") && !(c.data.drop (p ++ "/").data.length).contains '/'

/-- Go `path.Dir` and `path.Base` restricted to clean paths (no empty, `.` or
`..` segment, no trailing separator), which is all the examples below open:
the part before, respectively after, the last separator. -/
def cleanPath : PathPkg where
  Dir := fun s =>
    match s.data.reverse.dropWhile (fun ch => ch != '/') with
    | [] => "."
    | _ :: before => if before = [] then "/" else ⟨before.reverse⟩
  Base := fun s =>
    if s = "" then "." else ⟨(s.data.reverse.takeWhile (fun ch => ch != '/')).reverse⟩

/-- The namespace of the first scenario of the specification, `a/b.txt` and
`a/c/d.txt`, with some stored bytes. -/
def scenarioGroup : FileGroup where
  Entries := ["a/b.txt", "a/c/d.txt"]
  MustBytes := fun n =>
    if n = "a/b.txt" then some [104, 105, 33]
    else if n = "a/c/d.txt" then some [100]
    else none

/-- The namespace of the collision scenario of the specification: `x` is an
entry and also the directory of the entry `x/y`. -/
def collisionGroup : FileGroup where
  Entries := ["x", "x/y"]
  MustBytes := fun n =>
    if n = "x" then some [1, 2, 3]
    else if n = "x/y" then some [4]
    else none

/-- The handle `Open("x")` returns in the collision scenario. -/
def collisionHandle : file :=
  ⟨"x", ⟨collisionGroup, "."⟩, none, some ["x/y"], true⟩

/-- The handle `Open("a/c")` returns in the first scenario: a directory that is
not itself an entry. -/
def scenarioDirHandle : file :=
  ⟨"a/c", ⟨scenarioGroup, "a"⟩, none, some ["a/c/d.txt"], false⟩

/-- The handle `Open("a")` returns in the first scenario. -/
def scenarioRootHandle : file :=
  ⟨"a", ⟨scenarioGroup, "."⟩, none, some ["a/b.txt", "a/c/d.txt"], false⟩

/-- The child handle `Readdir` builds for the child path `c` of the handle `f`:
the loop body `r[i] = &file{c, &dir{f.dir.group, f.name}, nil, children, exists}`
with `exists, children := list(&dir{f.dir.group, c})`. -/
def childHandle (f : file) (c : String) : file :=
  ⟨c, ⟨f.dir.group, f.name⟩, none, (list ⟨f.dir.group, c⟩).2, (list ⟨f.dir.group, c⟩).1⟩

/-- Successive `Read` calls on one handle, one call per supplied buffer, each on
the handle as the previous call left it. The result is the handle after the
last call and, per call, the buffer contents after the call, the count and the
error that `Read` returned. -/
def readSeq : file → List (List UInt8) →
    Option (file × List (List UInt8 × Int × Option GoError))
  | f, [] => some (f, [])
  | f, q :: qs =>
    match f.Read q with
    | none => none
    | some (f1, q1, n, err) =>
      match readSeq f1 qs with
      | none => none
      | some (f2, rs) => some (f2, (q1, n, err) :: rs)

/-- The bytes one `Read` call handed back: the first `n` bytes of the buffer. -/
def returned (r : List UInt8 × Int × Option GoError) : List UInt8 :=
  r.1.take r.2.1.toNat

/-- The position in content `b` reached by reads that filled buffers of the
sizes of `qs` as far as the content allowed. -/
def cursorAfter (b : List UInt8) (qs : List (List UInt8)) : Nat :=
  min b.length (qs.map List.length).sum

/-- The handle `f` is a readable handle for path `p` of group `g` whose stored
bytes are `b`, positioned at `c`: either its reader is over `b` at index `c`,
or it has no reader yet and `c` is `0`. -/
def AtCursor (g : FileGroup) (p : String) (b : List UInt8) (f : file) (c : Nat) : Prop :=
  f.name = p ∧ f.dir.group = g ∧ f.exists_ = true ∧ c ≤ b.length ∧
    (f.buffer = some ⟨b, (c : Int)⟩ ∨ (f.buffer = none ∧ c = 0))

/-- The leaf handle `Open("a/b.txt")` returns in the first scenario. -/
def scenarioLeafHandle : file :=
  ⟨"a/b.txt", ⟨scenarioGroup, "a"⟩, none, some [], true⟩

/-- The handles a caller can hold: the ones `Open` returns, the entries
`Readdir` returns, and any of these after further method calls. -/
inductive Handle : file → Prop where
  | opened (P : PathPkg) (g : FileGroup) (name : String) (f : file) :
      g.Open P name = (some f, none) → Handle f
  | listed (f : file) (count : Int) (r : List file) (c : file) :
      Handle f → f.Readdir count = (some r, none) → c ∈ r → Handle c
  | read (f : file) (p : List UInt8) (res : file × List UInt8 × Int × Option GoError) :
      Handle f → f.Read p = some res → Handle res.1
  | seek (f : file) (offset whence : Int) (res : file × Int × Option GoError) :
      Handle f → f.Seek offset whence = some res → Handle res.1
  | closed (f : file) : Handle f → Handle f.Close.1
  | sized (f : file) (res : file × Int) : Handle f → f.Size = some res → Handle res.1

/-- Go `os.ModeDir`, the directory bit of an `os.FileMode`: `1 << 31`. -/
def ModeDir : Nat := 2 ^ 31

/-- Go `func (f *file) Mode() os.FileMode`. -/
def file.Mode (f : file) : Nat :=
  let m : Nat := 0
  if f.IsDir then m ||| ModeDir else m

/-- The method `file.open` once more, now paired with the log of the paths it
hands to `MustBytes`: the one call sits in the branch `f.buffer == nil`. -/
def file.openT (f : file) : Option (file × Option GoError) × List String :=
  if !f.exists_ then (some (f, some errIsDirectory), [])
  else
    match f.buffer with
    | some _ => (some (f, none), [])
    | none =>
      match f.dir.group.MustBytes f.name with
      | none => (none, [f.name])
      | some b => (some ({ f with buffer := some (NewReader b) }, none), [f.name])

/-- The method `file.Read` with the log of `MustBytes` calls. -/
def file.ReadT (f : file) (p : List UInt8) :
    Option (file × List UInt8 × Int × Option GoError) × List String :=
  match f.openT with
  | (none, t) => (none, t)
  | (some (f1, some err), t) => (some (f1, p, 0, some err), t)
  | (some (f1, none), t) =>
    match f1.buffer with
    | none => (none, t)
    | some r =>
      let res := r.Read p
      (some ({ f1 with buffer := some res.1 }, res.2.1, res.2.2.1, res.2.2.2), t)

/-- The method `file.Seek` with the log of `MustBytes` calls. -/
def file.SeekT (f : file) (offset : Int) (whence : Int) :
    Option (file × Int × Option GoError) × List String :=
  match f.openT with
  | (none, t) => (none, t)
  | (some (f1, some err), t) => (some (f1, 0, some err), t)
  | (some (f1, none), t) =>
    match f1.buffer with
    | none => (none, t)
    | some r =>
      let res := r.Seek offset whence
      (some ({ f1 with buffer := some res.1 }, res.2.1, res.2.2), t)

/-- The method `file.Size` with the log of `MustBytes` calls. -/
def file.SizeT (f : file) : Option (file × Int) × List String :=
  if f.IsDir then (some (f, 0), [])
  else
    match f.openT with
    | (none, t) => (none, t)
    | (some (f1, some _), t) => (some (f1, -1), t)
    | (some (f1, none), t) =>
      match f1.buffer with
      | none => (none, t)
      | some r => (some (f1, r.Size), t)

/-- One call a caller makes on a handle between opening and closing it. -/
inductive Call where
  | Read (p : List UInt8)
  | Seek (offset whence : Int)
  | Size

/-- The handle after one call (`none` when the call aborts) and the log of
`MustBytes` calls the call made. -/
def file.call (f : file) (c : Call) : Option file × List String :=
  match c with
  | Call.Read p => ((f.ReadT p).1.map (fun res => res.1), (f.ReadT p).2)
  | Call.Seek offset whence =>
    ((f.SeekT offset whence).1.map (fun res => res.1), (f.SeekT offset whence).2)
  | Call.Size => (f.SizeT.1.map (fun res => res.1), f.SizeT.2)

/-- A sequence of calls on one handle, each on the handle as the previous call
left it, stopping at a call that aborts; the logs are concatenated. -/
def runCalls : file → List Call → Option file × List String
  | f, [] => (some f, [])
  | f, c :: cs =>
    match f.call c with
    | (none, t) => (none, t)
    | (some f1, t) => ((runCalls f1 cs).1, t ++ (runCalls f1 cs).2)

/-- A caller's read-to-end loop: `Read` with a buffer of `k` zero bytes until a
call returns an error, collecting the bytes handed back. The result is the
handle afterwards, the bytes collected and the error that ended the loop;
`none` when a call aborts or `fuel` calls did not reach an error. -/
def readToEnd (k : Nat) : Nat → file → Option (file × List UInt8 × GoError)
  | 0, _ => none
  | fuel + 1, f =>
    match f.Read (List.replicate k 0) with
    | none => none
    | some (f1, q1, n, some err) => some (f1, q1.take n.toNat, err)
    | some (f1, q1, n, none) =>
      match readToEnd k fuel f1 with
      | none => none
      | some (f2, bs, err) => some (f2, q1.take n.toNat ++ bs, err)

/-- The handle `f1` is `f` after some calls other than `Close`: name, group,
existence flag and children are those of `f`; a reader `f` held is still held,
over the same bytes; a reader acquired since is over the bytes `MustBytes`
gives for the name. -/
def Evolves (f f1 : file) : Prop :=
  f1.name = f.name ∧ f1.dir = f.dir ∧ f1.exists_ = f.exists_ ∧ f1.children = f.children ∧
    (∀ r, f.buffer = some r → ∃ r1, f1.buffer = some r1 ∧ r1.s = r.s) ∧
    (f.buffer = none → ∀ r1, f1.buffer = some r1 →
      f.dir.group.MustBytes f.name = some r1.s)

/-- A namespace whose entry `a` has no bytes the group could produce. -/
def brokenGroup : FileGroup where
  Entries := ["a"]
  MustBytes := fun _ => none

/-- The handle `Open("a")` returns on `brokenGroup`. -/
def brokenHandle : file :=
  ⟨"a", ⟨brokenGroup, "."⟩, none, some [], true⟩

/-- A namespace with nested directories: `a/b` is an entry, a child of `a`, and
the directory of `a/b/c` and `a/b/c/d`. -/
def nestedGroup : FileGroup where
  Entries := ["a/x", "a/b/c", "a/b", "a/b/c/d"]
  MustBytes := fun _ => some []

/-! ## Basic facts about the standard-library model -/

theorem HasPrefix_iff (s pre : String) :
    HasPrefix s pre = true ↔ ∃ t : String, s = pre ++ t := by
  unfold HasPrefix
  constructor
  · intro h
    simp only [Bool.and_eq_true, decide_eq_true_eq, beq_iff_eq] at h
    refine ⟨⟨s.data.drop pre.data.length⟩, ?_⟩
    apply String.ext
    have key := List.take_append_drop pre.data.length s.data
    rw [h.2] at key
    rw [String.data_append]
    exact key.symm
  · rintro ⟨t, rfl⟩
    simp [String.data_append]

/-! ## The namespace scan -/

theorem list_foldl (pfx : String) (l : List String) (acc : Bool × List String) :
    l.foldl (list.step pfx) acc =
      (acc.1 || decide (pfx ∈ l),
       acc.2 ++ l.filter (fun e => HasPrefix e (pfx ++ "/"))) := by
  induction l generalizing acc with
  | nil => simp
  | cons e l ih =>
    rw [List.foldl_cons, ih]
    have hfil : (list.step pfx acc e).2 ++ l.filter (fun e => HasPrefix e (pfx ++ "/")) =
        acc.2 ++ (e :: l).filter (fun e => HasPrefix e (pfx ++ "/")) := by
      by_cases h2 : HasPrefix e (pfx ++ "/") = true <;>
        simp [list.step, h2, List.filter_cons]
    have hex : ((list.step pfx acc e).1 || decide (pfx ∈ l)) =
        (acc.1 || decide (pfx ∈ e :: l)) := by
      by_cases h1 : e = pfx
      · simp [list.step, h1]
      · have h1s : ¬ pfx = e := fun h => h1 h.symm
        simp [list.step, h1, h1s]
    rw [hfil, hex]

theorem list_eq (d : dir) :
    list d =
      if d.pfx ∉ d.group.Entries ∧ descendants d.group.Entries d.pfx = [] then (false, none)
      else (decide (d.pfx ∈ d.group.Entries), some (descendants d.group.Entries d.pfx)) := by
  unfold list
  simp only [list_foldl, Bool.false_or, List.nil_append]
  by_cases h1 : d.pfx ∈ d.group.Entries <;>
    by_cases h2 : descendants d.group.Entries d.pfx = [] <;>
    simp_all [descendants]

theorem list_fst (d : dir) : (list d).1 = decide (d.pfx ∈ d.group.Entries) := by
  rw [list_eq]
  split
  · rename_i h
    simp [h.1]
  · rfl

theorem list_elems (d : dir) : elems (list d).2 = descendants d.group.Entries d.pfx := by
  rw [list_eq]
  split
  · rename_i h
    simp [elems, h.2]
  · rfl

theorem list_snd_eq_none_iff (d : dir) :
    (list d).2 = none ↔ d.pfx ∉ d.group.Entries ∧ descendants d.group.Entries d.pfx = [] := by
  rw [list_eq]
  split
  · rename_i h
    simp [h]
  · rename_i h
    simp [h]

theorem list_snd_some (d : dir) (ch : List String) (h : (list d).2 = some ch) :
    ch = descendants d.group.Entries d.pfx := by
  have := list_elems d
  rw [h] at this
  exact this

theorem mem_descendants (N : List String) (p c : String) :
    c ∈ descendants N p ↔ c ∈ N ∧ ∃ t : String, c = p ++ "/" ++ t := by
  unfold descendants
  rw [List.mem_filter, HasPrefix_iff]

theorem descendants_eq_nil_iff (N : List String) (p : String) :
    descendants N p = [] ↔ ∀ e ∈ N, ¬ ∃ t : String, e = p ++ "/" ++ t := by
  rw [List.eq_nil_iff_forall_not_mem]
  constructor
  · intro h e he ht
    exact h e ((mem_descendants N p e).2 ⟨he, ht⟩)
  · intro h e he
    have := (mem_descendants N p e).1 he
    exact h e this.1 this.2

theorem not_self_child (p : String) : ¬ ∃ t : String, p = p ++ "/" ++ t := by
  rintro ⟨t, ht⟩
  have := congrArg (fun s : String => s.data.length) ht
  simp [String.data_append] at this

/-! ## Path resolution: `list` -/

/-- C1: for every namespace (the list `Entries` returns) and every path `p`,
the existence flag returned by `list` for prefix `p` is true if and only if `p`
is an element of the namespace. -/
theorem list_exists_iff_mem (g : FileGroup) (p : String) :
    (list ⟨g, p⟩).1 = true ↔ p ∈ g.Entries := by
  rw [list_fst]
  simp

/-- C2: a path `c` is among the children `list` returns for prefix `p` if and
only if `c` is an entry of the namespace and `c` is `p`, then the separator,
then some remainder. In particular an entry such as "ab/c" is not a child of
"a", and `p` is never among its own children. -/
theorem list_children_iff (g : FileGroup) (p c : String) :
    (c ∈ elems (list ⟨g, p⟩).2 ↔ c ∈ g.Entries ∧ ∃ t : String, c = p ++ "/" ++ t) ∧
    p ∉ elems (list ⟨g, p⟩).2 ∧
    ("ab/c" ∉ elems (list ⟨g, "a"⟩).2) := by
  refine ⟨?_, ?_, ?_⟩
  · rw [list_elems, mem_descendants]
  · rw [list_elems, mem_descendants]
    exact fun h => not_self_child p h.2
  · rw [list_elems]
    unfold descendants
    rw [List.mem_filter]
    intro h
    have hne : HasPrefix "ab/c" ("a" ++ "/") = false := by decide
    have h2 : HasPrefix "ab/c" ("a" ++ "/") = true := h.2
    rw [hne] at h2
    exact Bool.noConfusion h2

/-! ## `Open` -/

theorem Open_eq (P : PathPkg) (g : FileGroup) (p : String) :
    g.Open P p =
      if p ∉ g.Entries ∧ descendants g.Entries p = [] then (none, some GoError.ErrNotExist)
      else (some ⟨p, ⟨g, P.Dir p⟩, none, some (descendants g.Entries p),
              decide (p ∈ g.Entries)⟩, none) := by
  unfold FileGroup.Open
  rw [list_eq]
  split <;> rfl

theorem Open_some (P : PathPkg) (g : FileGroup) (p : String) (f : file)
    (h : g.Open P p = (some f, none)) :
    f = ⟨p, ⟨g, P.Dir p⟩, none, some (descendants g.Entries p), decide (p ∈ g.Entries)⟩ ∧
      ¬ (p ∉ g.Entries ∧ descendants g.Entries p = []) := by
  rw [Open_eq] at h
  split at h
  · simp at h
  · rename_i hn
    simp only [Prod.mk.injEq, Option.some.injEq, and_true] at h
    exact ⟨h.symm, hn⟩

/-- C3: `Open(p)` fails with the not-exist error exactly when `p` is not an
entry and no entry starts with `p` followed by the separator; in every other
case it succeeds with a handle that records the name `p`, no buffer, and the
children and existence flag `list` computes for `p`. A plain leaf is opened
with an empty, non-nil children list. -/
theorem Open_notExist_iff (P : PathPkg) (g : FileGroup) (p : String) :
    (g.Open P p = (none, some GoError.ErrNotExist) ↔
      (p ∉ g.Entries ∧ ∀ e ∈ g.Entries, ¬ ∃ t : String, e = p ++ "/" ++ t)) ∧
    (¬ (p ∉ g.Entries ∧ ∀ e ∈ g.Entries, ¬ ∃ t : String, e = p ++ "/" ++ t) →
      g.Open P p =
        (some ⟨p, ⟨g, P.Dir p⟩, none, (list ⟨g, p⟩).2, (list ⟨g, p⟩).1⟩, none) ∧
      (list ⟨g, p⟩).2 ≠ none) ∧
    (p ∈ g.Entries → (∀ e ∈ g.Entries, ¬ ∃ t : String, e = p ++ "/" ++ t) →
      g.Open P p = (some ⟨p, ⟨g, P.Dir p⟩, none, some [], true⟩, none)) := by
  refine ⟨?_, ?_, ?_⟩
  · rw [Open_eq, ← descendants_eq_nil_iff]
    split
    · rename_i h
      simp [h]
    · rename_i h
      simp [h]
  · rw [← descendants_eq_nil_iff]
    intro h
    rw [Open_eq, list_eq, if_neg h]
    simp [h]
  · intro hp hno
    rw [← descendants_eq_nil_iff] at hno
    rw [Open_eq]
    simp [hp, hno]

/-- C4 fails as stated: in the namespace of the first scenario `list` reports
`a/c/d.txt` among the children of `a`, although its remainder `c/d.txt` after
`a/` holds a further separator. -/
theorem list_reports_deeper_descendant :
    "a/c/d.txt" ∈ elems (list ⟨scenarioGroup, "a"⟩).2 ∧
    immediateChild "a" "a/c/d.txt" = false ∧
    "a/c/d.txt" = "a" ++ "/" ++ "c/d.txt" ∧ '/' ∈ "c/d.txt".data := by
  decide

/-- C4 (amended): every child path that `list`, `Open` and `Readdir` report for
`p` is an entry of the namespace that starts with `p` followed by the
separator, that is a descendant of `p` at any depth. -/
theorem reported_children_are_descendants (P : PathPkg) (g : FileGroup) (p c : String) :
    (c ∈ elems (list ⟨g, p⟩).2 → c ∈ g.Entries ∧ ∃ t : String, c = p ++ "/" ++ t) ∧
    (∀ f : file, g.Open P p = (some f, none) → c ∈ elems f.children →
      c ∈ g.Entries ∧ ∃ t : String, c = p ++ "/" ++ t) ∧
    (∀ (f : file) (count : Int) (r : List file), g.Open P p = (some f, none) →
      f.Readdir count = (some r, none) → ∀ e ∈ r,
      e.name ∈ g.Entries ∧ ∃ t : String, e.name = p ++ "/" ++ t) := by
  refine ⟨?_, ?_, ?_⟩
  · rw [list_elems, mem_descendants]
    exact id
  · intro f hf hc
    obtain ⟨rfl, -⟩ := Open_some P g p f hf
    exact (mem_descendants g.Entries p c).1 hc
  · intro f count r hf hr e he
    obtain ⟨rfl, -⟩ := Open_some P g p f hf
    unfold file.Readdir at hr
    split at hr
    · simp at hr
    · simp only [Prod.mk.injEq, Option.some.injEq, and_true] at hr
      subst hr
      rw [List.mem_map] at he
      obtain ⟨c', hc', rfl⟩ := he
      exact (mem_descendants g.Entries p c').1 hc'

/-! ## Content access: `open`, `Read`, `Seek` -/

theorem open_of_not_exists (f : file) (h : f.exists_ = false) :
    f.open = some (f, some errIsDirectory) := by
  simp [file.open, h]

theorem open_of_exists (f : file) (h : f.exists_ = true) :
    f.open =
      match f.buffer with
      | some _ => some (f, none)
      | none =>
        match f.dir.group.MustBytes f.name with
        | none => none
        | some b => some ({ f with buffer := some (NewReader b) }, none) := by
  simp [file.open, h]

theorem open_exists_cases (f : file) (h : f.exists_ = true) :
    f.open = none ∨ ∃ f1 r, f.open = some (f1, none) ∧ f1.buffer = some r ∧
      f1.exists_ = true := by
  rw [open_of_exists f h]
  cases hb : f.buffer with
  | some r => exact Or.inr ⟨f, r, rfl, hb, h⟩
  | none =>
    cases hm : f.dir.group.MustBytes f.name with
    | none => exact Or.inl rfl
    | some b => exact Or.inr ⟨_, NewReader b, rfl, rfl, h⟩

theorem Read_of_not_exists (f : file) (p : List UInt8) (h : f.exists_ = false) :
    f.Read p = some (f, p, 0, some errIsDirectory) := by
  simp [file.Read, open_of_not_exists f h]

theorem Seek_of_not_exists (f : file) (offset whence : Int) (h : f.exists_ = false) :
    f.Seek offset whence = some (f, 0, some errIsDirectory) := by
  simp [file.Seek, open_of_not_exists f h]

theorem Reader_Read_err (r : Reader) (p : List UInt8) :
    (r.Read p).2.2.2 ≠ some errIsDirectory := by
  unfold Reader.Read
  split <;> simp [errIsDirectory]

theorem Reader_Seek_err (r : Reader) (offset whence : Int) :
    (r.Seek offset whence).2.2 ≠ some errIsDirectory := by
  have h1 : GoError.New "bytes.Reader.Seek: invalid whence" ≠ errIsDirectory := by decide
  have h2 : GoError.New "bytes.Reader.Seek: negative position" ≠ errIsDirectory := by decide
  unfold Reader.Seek
  dsimp only
  split
  · simpa using h1
  · split
    · simpa using h2
    · simp

theorem Read_of_exists (f : file) (p : List UInt8) (h : f.exists_ = true)
    (res : file × List UInt8 × Int × Option GoError) (hr : f.Read p = some res) :
    res.2.2.2 ≠ some errIsDirectory ∧ res.1.exists_ = true := by
  unfold file.Read at hr
  rcases open_exists_cases f h with h0 | ⟨f1, r, h1, hb, he⟩
  · rw [h0] at hr
    simp at hr
  · rw [h1] at hr
    simp only [hb, Option.some.injEq] at hr
    subst hr
    exact ⟨Reader_Read_err r p, he⟩

theorem Seek_of_exists (f : file) (offset whence : Int) (h : f.exists_ = true)
    (res : file × Int × Option GoError) (hr : f.Seek offset whence = some res) :
    res.2.2 ≠ some errIsDirectory ∧ res.1.exists_ = true := by
  unfold file.Seek at hr
  rcases open_exists_cases f h with h0 | ⟨f1, r, h1, hb, he⟩
  · rw [h0] at hr
    simp at hr
  · rw [h1] at hr
    simp only [hb, Option.some.injEq] at hr
    subst hr
    exact ⟨Reader_Seek_err r offset whence, he⟩

theorem Size_of_exists (f : file) (h : f.exists_ = true) (res : file × Int)
    (hr : f.Size = some res) : res.1.exists_ = true := by
  unfold file.Size at hr
  split at hr
  · simp only [Option.some.injEq] at hr
    subst hr
    exact h
  · rcases open_exists_cases f h with h0 | ⟨f1, r, h1, hb, he⟩
    · rw [h0] at hr
      simp at hr
    · rw [h1] at hr
      simp only [hb, Option.some.injEq] at hr
      subst hr
      exact he

theorem Size_of_not_exists (f : file) (h : f.exists_ = false) (res : file × Int)
    (hr : f.Size = some res) : res.1 = f := by
  unfold file.Size at hr
  split at hr
  · simp only [Option.some.injEq] at hr
    subst hr
    rfl
  · rw [open_of_not_exists f h] at hr
    simp only [Option.some.injEq] at hr
    subst hr
    rfl

/-- A handle whose existence flag is false never holds a buffer. -/
theorem Handle_buffer (f : file) (hf : Handle f) : f.exists_ = false → f.buffer = none := by
  induction hf with
  | opened P g name f h =>
    intro _
    rw [(Open_some P g name f h).1]
  | listed f count r c _ hr hc _ =>
    intro _
    unfold file.Readdir at hr
    split at hr
    · simp at hr
    · simp only [Prod.mk.injEq, Option.some.injEq, and_true] at hr
      subst hr
      rw [List.mem_map] at hc
      obtain ⟨c', -, rfl⟩ := hc
      rfl
  | read f p res _ hr ih =>
    intro hres
    cases hex : f.exists_ with
    | false =>
      rw [Read_of_not_exists f p hex] at hr
      simp only [Option.some.injEq] at hr
      subst hr
      exact ih hex
    | true =>
      have := (Read_of_exists f p hex res hr).2
      rw [hres] at this
      exact Bool.noConfusion this
  | seek f offset whence res _ hr ih =>
    intro hres
    cases hex : f.exists_ with
    | false =>
      rw [Seek_of_not_exists f offset whence hex] at hr
      simp only [Option.some.injEq] at hr
      subst hr
      exact ih hex
    | true =>
      have := (Seek_of_exists f offset whence hex res hr).2
      rw [hres] at this
      exact Bool.noConfusion this
  | closed f _ _ =>
    intro _
    rfl
  | sized f res _ hr ih =>
    intro hres
    cases hex : f.exists_ with
    | false =>
      rw [Size_of_not_exists f hex res hr]
      exact ih hex
    | true =>
      have := Size_of_exists f hex res hr
      rw [hres] at this
      exact Bool.noConfusion this

theorem Read_fresh (f : file) (p b : List UInt8) (he : f.exists_ = true)
    (hb : f.buffer = none) (hm : f.dir.group.MustBytes f.name = some b) :
    f.Read p =
      some ({ f with buffer := some ((NewReader b).Read p).1 },
        ((NewReader b).Read p).2.1, ((NewReader b).Read p).2.2.1,
        ((NewReader b).Read p).2.2.2) := by
  unfold file.Read
  rw [open_of_exists f he]
  simp [hb, hm]

theorem NewReader_Read_nonempty (b p : List UInt8) (hne : b ≠ []) :
    (NewReader b).Read p =
      (⟨b, ((min p.length b.length : Nat) : Int)⟩,
        b.take (min p.length b.length) ++ p.drop (min p.length b.length),
        ((min p.length b.length : Nat) : Int), none) := by
  have hlen : 0 < b.length := List.length_pos.2 hne
  unfold Reader.Read NewReader copy
  have hlt : ¬ ((0 : Int) ≥ (b.length : Int)) := by omega
  simp only [hlt, if_false]
  simp

/-! ## The leaf/directory collision -/

/-- C5 fails as stated: in the collision scenario the handle `Open("x")`
returns has the existence flag set and the child `x/y`, so it is a directory,
and `Read` on it with a two-byte buffer does not fail: it copies the first two
of the bytes stored for `x` and returns `2` with a nil error. -/
theorem collision_Read_returns_bytes :
    collisionGroup.Open cleanPath "x" = (some collisionHandle, none) ∧
    collisionHandle.exists_ = true ∧ collisionHandle.children = some ["x/y"] ∧
    collisionHandle.IsDir = true ∧
    collisionHandle.Read [0, 0] =
      some ({ collisionHandle with buffer := some ⟨[1, 2, 3], 2⟩ }, [1, 2], 2, none) := by
  refine ⟨rfl, rfl, rfl, rfl, rfl⟩

/-- C5 (amended): when `x` is an entry and some entry starts with `x` followed
by the separator, the handle `Open(x)` returns has the existence flag set and
a non-empty children list, so `IsDir` is true, and `Read` on it never fails
with the "can't read from a directory" error: with bytes `b` stored for `x` it
reads from a fresh reader over `b`, and for non-empty `b` it copies the first
`min(len p, len b)` bytes and returns that count with a nil error. -/
theorem collision_handle_reads (P : PathPkg) (g : FileGroup) (x : String)
    (hx : x ∈ g.Entries) (hc : ∃ e ∈ g.Entries, ∃ t : String, e = x ++ "/" ++ t) :
    ∃ f : file, g.Open P x = (some f, none) ∧ f.exists_ = true ∧
      (∃ c cs, f.children = some (c :: cs)) ∧ f.IsDir = true ∧
      ∀ p : List UInt8,
        (∀ res, f.Read p = some res → res.2.2.2 ≠ some errIsDirectory) ∧
        (∀ b, g.MustBytes x = some b →
          f.Read p =
            some ({ f with buffer := some ((NewReader b).Read p).1 },
              ((NewReader b).Read p).2.1, ((NewReader b).Read p).2.2.1,
              ((NewReader b).Read p).2.2.2) ∧
          (b ≠ [] →
            f.Read p =
              some ({ f with buffer := some ⟨b, ((min p.length b.length : Nat) : Int)⟩ },
                b.take (min p.length b.length) ++ p.drop (min p.length b.length),
                ((min p.length b.length : Nat) : Int), none))) := by
  obtain ⟨e, he, ht⟩ := hc
  have hmem : e ∈ descendants g.Entries x := (mem_descendants g.Entries x e).2 ⟨he, ht⟩
  obtain ⟨c, cs, hcs⟩ : ∃ c cs, descendants g.Entries x = c :: cs := by
    cases hd : descendants g.Entries x with
    | nil => rw [hd] at hmem; simp at hmem
    | cons c cs => exact ⟨c, cs, rfl⟩
  refine ⟨⟨x, ⟨g, P.Dir x⟩, none, some (descendants g.Entries x), true⟩, ?_, rfl,
    ⟨c, cs, by rw [hcs]⟩, ?_, ?_⟩
  · rw [Open_eq]
    simp [hx]
  · simp [file.IsDir, len, hcs]
  · intro p
    refine ⟨fun res hr => (Read_of_exists _ p rfl res hr).1, fun b hb => ?_⟩
    have h1 := Read_fresh ⟨x, ⟨g, P.Dir x⟩, none, some (descendants g.Entries x), true⟩
      p b rfl rfl hb
    refine ⟨h1, fun hne => ?_⟩
    rw [h1, NewReader_Read_nonempty b p hne]

/-- Witness for C5 (amended): the collision scenario. -/
theorem collision_handle_reads_witness :
    "x" ∈ collisionGroup.Entries ∧
    (∃ e ∈ collisionGroup.Entries, ∃ t : String, e = "x" ++ "/" ++ t) ∧
    ∃ f : file, collisionGroup.Open cleanPath "x" = (some f, none) ∧ f.exists_ = true ∧
      (∃ c cs, f.children = some (c :: cs)) ∧ f.IsDir = true ∧
      ∀ p : List UInt8,
        (∀ res, f.Read p = some res → res.2.2.2 ≠ some errIsDirectory) ∧
        (∀ b, collisionGroup.MustBytes "x" = some b →
          f.Read p =
            some ({ f with buffer := some ((NewReader b).Read p).1 },
              ((NewReader b).Read p).2.1, ((NewReader b).Read p).2.2.1,
              ((NewReader b).Read p).2.2.2) ∧
          (b ≠ [] →
            f.Read p =
              some ({ f with buffer := some ⟨b, ((min p.length b.length : Nat) : Int)⟩ },
                b.take (min p.length b.length) ++ p.drop (min p.length b.length),
                ((min p.length b.length : Nat) : Int), none))) :=
  ⟨by decide, ⟨"x/y", by decide, "y", by decide⟩,
    collision_handle_reads cleanPath collisionGroup "x" (by decide)
      ⟨"x/y", by decide, "y", by decide⟩⟩

/-! ## The directory guard of `Read` and `Seek` -/

/-- C6: on every handle, `Read` and `Seek` fail with the "can't read from a
directory" error if and only if the existence flag is false; when they fail so
they return `0`, leave the caller's buffer and the handle as they were, and the
handle's byte buffer is absent afterwards. -/
theorem Read_Seek_directory_error_iff (f : file) (hf : Handle f) (p : List UInt8)
    (offset whence : Int) :
    ((∃ f1 p1 n, f.Read p = some (f1, p1, n, some errIsDirectory)) ↔ f.exists_ = false) ∧
    ((∃ f1 n, f.Seek offset whence = some (f1, n, some errIsDirectory)) ↔
      f.exists_ = false) ∧
    (∀ f1 p1 n, f.Read p = some (f1, p1, n, some errIsDirectory) →
      n = 0 ∧ p1 = p ∧ f1 = f ∧ f1.buffer = none) ∧
    (∀ f1 n, f.Seek offset whence = some (f1, n, some errIsDirectory) →
      n = 0 ∧ f1 = f ∧ f1.buffer = none) := by
  have hbuf := Handle_buffer f hf
  cases hex : f.exists_ with
  | false =>
    have hR := Read_of_not_exists f p hex
    have hS := Seek_of_not_exists f offset whence hex
    refine ⟨⟨fun _ => rfl, fun _ => ⟨f, p, 0, hR⟩⟩, ⟨fun _ => rfl, fun _ => ⟨f, 0, hS⟩⟩, ?_, ?_⟩
    · intro f1 p1 n h
      rw [hR] at h
      simp only [Option.some.injEq, Prod.mk.injEq, and_true] at h
      obtain ⟨rfl, rfl, rfl⟩ := h
      exact ⟨rfl, rfl, rfl, hbuf hex⟩
    · intro f1 n h
      rw [hS] at h
      simp only [Option.some.injEq, Prod.mk.injEq, and_true] at h
      obtain ⟨rfl, rfl⟩ := h
      exact ⟨rfl, rfl, hbuf hex⟩
  | true =>
    have hR : ∀ f1 p1 n, f.Read p ≠ some (f1, p1, n, some errIsDirectory) :=
      fun f1 p1 n h => (Read_of_exists f p hex _ h).1 rfl
    have hS : ∀ f1 n, f.Seek offset whence ≠ some (f1, n, some errIsDirectory) :=
      fun f1 n h => (Seek_of_exists f offset whence hex _ h).1 rfl
    refine ⟨⟨?_, fun h => Bool.noConfusion h⟩, ⟨?_, fun h => Bool.noConfusion h⟩, ?_, ?_⟩
    · rintro ⟨f1, p1, n, h⟩
      exact absurd h (hR f1 p1 n)
    · rintro ⟨f1, n, h⟩
      exact absurd h (hS f1 n)
    · intro f1 p1 n h
      exact absurd h (hR f1 p1 n)
    · intro f1 n h
      exact absurd h (hS f1 n)

/-- Witness for C6: the directory handle `Open("a/c")` of the first scenario,
a one-byte buffer, and a seek to the start. -/
theorem Read_Seek_directory_error_iff_witness :
    Handle scenarioDirHandle ∧
    ((∃ f1 p1 n, scenarioDirHandle.Read [0] = some (f1, p1, n, some errIsDirectory)) ↔
      scenarioDirHandle.exists_ = false) ∧
    ((∃ f1 n, scenarioDirHandle.Seek 0 0 = some (f1, n, some errIsDirectory)) ↔
      scenarioDirHandle.exists_ = false) ∧
    (∀ f1 p1 n, scenarioDirHandle.Read [0] = some (f1, p1, n, some errIsDirectory) →
      n = 0 ∧ p1 = [0] ∧ f1 = scenarioDirHandle ∧ f1.buffer = none) ∧
    (∀ f1 n, scenarioDirHandle.Seek 0 0 = some (f1, n, some errIsDirectory) →
      n = 0 ∧ f1 = scenarioDirHandle ∧ f1.buffer = none) :=
  ⟨Handle.opened cleanPath scenarioGroup "a/c" scenarioDirHandle rfl,
    Read_Seek_directory_error_iff scenarioDirHandle
      (Handle.opened cleanPath scenarioGroup "a/c" scenarioDirHandle rfl) [0] 0 0⟩

/-! ## `IsDir` and `Readdir` -/

theorem IsDir_iff (f : file) : f.IsDir = true ↔ ∃ c cs, f.children = some (c :: cs) := by
  unfold file.IsDir
  cases hch : f.children with
  | none => simp [len]
  | some l =>
    cases l with
    | nil => simp [len]
    | cons c cs => simp [len]

/-- C7: when `Open(p)` succeeds, `IsDir` on the returned handle is true if and
only if some entry of the namespace starts with `p` followed by the separator,
equivalently if and only if the handle's children list is non-empty; whether
`p` itself is an entry plays no part. -/
theorem Open_IsDir_iff (P : PathPkg) (g : FileGroup) (p : String) (f : file)
    (h : g.Open P p = (some f, none)) :
    (f.IsDir = true ↔ ∃ e ∈ g.Entries, ∃ t : String, e = p ++ "/" ++ t) ∧
    (f.IsDir = true ↔ ∃ c cs, f.children = some (c :: cs)) ∧
    (f.IsDir = true ↔ 0 < len f.children) := by
  obtain ⟨rfl, -⟩ := Open_some P g p f h
  refine ⟨?_, IsDir_iff _, ?_⟩
  · rw [IsDir_iff]
    constructor
    · rintro ⟨c, cs, hc⟩
      simp only [Option.some.injEq] at hc
      have hmem : c ∈ descendants g.Entries p := by rw [hc]; exact List.mem_cons_self c cs
      obtain ⟨h1, h2⟩ := (mem_descendants g.Entries p c).1 hmem
      exact ⟨c, h1, h2⟩
    · rintro ⟨e, he, ht⟩
      have hmem : e ∈ descendants g.Entries p := (mem_descendants g.Entries p e).2 ⟨he, ht⟩
      cases hd : descendants g.Entries p with
      | nil => rw [hd] at hmem; simp at hmem
      | cons c cs => exact ⟨c, cs, rfl⟩
  · simp [file.IsDir, len]

/-- Witness for C7: `Open("x")` in the collision scenario, where `x` is an entry
and a directory at once. -/
theorem Open_IsDir_iff_witness :
    collisionGroup.Open cleanPath "x" = (some collisionHandle, none) ∧
    (collisionHandle.IsDir = true ↔
      ∃ e ∈ collisionGroup.Entries, ∃ t : String, e = "x" ++ "/" ++ t) ∧
    (collisionHandle.IsDir = true ↔ ∃ c cs, collisionHandle.children = some (c :: cs)) ∧
    (collisionHandle.IsDir = true ↔ 0 < len collisionHandle.children) :=
  ⟨rfl, Open_IsDir_iff cleanPath collisionGroup "x" collisionHandle rfl⟩

/-- C8: on a directory handle `Readdir` succeeds for every count argument and
returns one entry per recorded child, in the order of the children list: the
entry at position `i` is the handle built for the child at position `i`, with
that child as its path, no buffer, and the existence flag and children that
`list` computes for it against the group's namespace. The children list `list`
computes is the sub-list of matching entries in namespace order, duplicates
kept. -/
theorem Readdir_entries (f : file) (count : Int) (h : f.IsDir = true) :
    (∃ r : List file, f.Readdir count = (some r, none) ∧
      r = (elems f.children).map (childHandle f) ∧
      r.length = len f.children ∧
      (∀ (i : Nat) (hi : i < r.length) (hc : i < (elems f.children).length),
        (r.get ⟨i, hi⟩).name = (elems f.children).get ⟨i, hc⟩ ∧
        (r.get ⟨i, hi⟩).buffer = none ∧
        (r.get ⟨i, hi⟩).exists_ =
          (list ⟨f.dir.group, (elems f.children).get ⟨i, hc⟩⟩).1 ∧
        (r.get ⟨i, hi⟩).children =
          (list ⟨f.dir.group, (elems f.children).get ⟨i, hc⟩⟩).2)) ∧
    (∀ (g : FileGroup) (p : String),
      elems (list ⟨g, p⟩).2 = g.Entries.filter (fun e => HasPrefix e (p ++ "/"))) := by
  refine ⟨⟨(elems f.children).map (childHandle f), ?_, rfl, ?_, ?_⟩, ?_⟩
  · unfold file.Readdir
    simp only [h, Bool.not_true, Bool.false_eq_true, if_false]
    rfl
  · rw [List.length_map]
    cases f.children <;> rfl
  · intro i hi hc
    simp only [List.get_eq_getElem, List.getElem_map]
    exact ⟨rfl, rfl, rfl, rfl⟩
  · intro g p
    rw [list_elems]
    rfl

/-- Witness for C8: `Readdir` on the handle `Open("a")` of the first scenario,
with a count of `1` that is not honoured. -/
theorem Readdir_entries_witness :
    scenarioRootHandle.IsDir = true ∧
    (∃ r : List file, scenarioRootHandle.Readdir 1 = (some r, none) ∧
      r = (elems scenarioRootHandle.children).map (childHandle scenarioRootHandle) ∧
      r.length = len scenarioRootHandle.children ∧
      (∀ (i : Nat) (hi : i < r.length) (hc : i < (elems scenarioRootHandle.children).length),
        (r.get ⟨i, hi⟩).name = (elems scenarioRootHandle.children).get ⟨i, hc⟩ ∧
        (r.get ⟨i, hi⟩).buffer = none ∧
        (r.get ⟨i, hi⟩).exists_ =
          (list ⟨scenarioRootHandle.dir.group,
            (elems scenarioRootHandle.children).get ⟨i, hc⟩⟩).1 ∧
        (r.get ⟨i, hi⟩).children =
          (list ⟨scenarioRootHandle.dir.group,
            (elems scenarioRootHandle.children).get ⟨i, hc⟩⟩).2)) ∧
    (∀ (g : FileGroup) (p : String),
      elems (list ⟨g, p⟩).2 = g.Entries.filter (fun e => HasPrefix e (p ++ "/"))) :=
  ⟨rfl, Readdir_entries scenarioRootHandle 1 rfl⟩

/-- C9: on every handle and for every count, `Readdir` fails with the "not a
directory" error, returning a nil slice, if and only if `IsDir` is false, which
is the case exactly when the children list is nil or empty; otherwise it
returns entries and a nil error. -/
theorem Readdir_error_iff (f : file) (count : Int) :
    (f.Readdir count = (none, some errNotDirectory) ↔ f.IsDir = false) ∧
    ((∃ r, f.Readdir count = (r, some errNotDirectory)) ↔ f.IsDir = false) ∧
    (f.IsDir = false ↔ f.children = none ∨ f.children = some []) ∧
    (f.IsDir = true → ∃ r, f.Readdir count = (some r, none)) := by
  have hdir : f.IsDir = false ↔ f.children = none ∨ f.children = some [] := by
    unfold file.IsDir
    cases hch : f.children with
    | none => simp [len]
    | some l =>
      cases l with
      | nil => simp [len]
      | cons c cs => simp [len]
  refine ⟨?_, ?_, hdir, ?_⟩
  · unfold file.Readdir
    cases hd : f.IsDir <;> simp
  · unfold file.Readdir
    cases hd : f.IsDir <;> simp
  · intro hd
    unfold file.Readdir
    simp [hd]

/-! ## Reading a leaf to the end -/

theorem Reader_Read_at (b q : List UInt8) (c : Nat) (hc : c ≤ b.length) :
    (Reader.mk b (c : Int)).Read q =
      (⟨b, ((c + min q.length (b.length - c) : Nat) : Int)⟩,
        (b.drop c).take (min q.length (b.length - c)) ++
          q.drop (min q.length (b.length - c)),
        ((min q.length (b.length - c) : Nat) : Int),
        if c = b.length then some GoError.EOF else none) := by
  unfold Reader.Read
  by_cases hend : c = b.length
  · subst hend
    simp
  · have hlt : ¬ ((c : Int) ≥ (b.length : Int)) := by omega
    simp only [hlt, if_false, hend, copy, Int.toNat_ofNat, List.length_drop]
    simp

theorem Read_at (g : FileGroup) (p : String) (b q : List UInt8) (f : file) (c : Nat)
    (hf : AtCursor g p b f c) (hb : g.MustBytes p = some b) :
    ∃ f2 : file,
      f.Read q =
        some (f2,
          (b.drop c).take (min q.length (b.length - c)) ++
            q.drop (min q.length (b.length - c)),
          ((min q.length (b.length - c) : Nat) : Int),
          if c = b.length then some GoError.EOF else none) ∧
      AtCursor g p b f2 (c + min q.length (b.length - c)) ∧
      f2.buffer = some ⟨b, ((c + min q.length (b.length - c) : Nat) : Int)⟩ := by
  obtain ⟨hn, hg, he, hc, hbuf⟩ := hf
  have hle : c + min q.length (b.length - c) ≤ b.length := by omega
  rcases hbuf with hsome | ⟨hnone, rfl⟩
  · refine ⟨{ f with buffer := some ⟨b, ((c + min q.length (b.length - c) : Nat) : Int)⟩ },
      ?_, ⟨hn, hg, he, hle, Or.inl rfl⟩, rfl⟩
    unfold file.Read
    rw [open_of_exists f he]
    simp only [hsome]
    rw [Reader_Read_at b q c hc]
  · refine ⟨{ f with buffer := some ⟨b, ((0 + min q.length (b.length - 0) : Nat) : Int)⟩ },
      ?_, ⟨hn, hg, he, hle, Or.inl rfl⟩, rfl⟩
    have hm : f.dir.group.MustBytes f.name = some b := by rw [hg, hn]; exact hb
    rw [Read_fresh f q b he hnone hm]
    have := Reader_Read_at b q 0 hc
    simp only [Nat.cast_zero] at this
    rw [show NewReader b = Reader.mk b 0 from rfl, this]

theorem length_le_sum_lengths (qs : List (List UInt8)) (h : ∀ x ∈ qs, x ≠ []) :
    qs.length ≤ (qs.map List.length).sum := by
  induction qs with
  | nil => simp
  | cons q qs ih =>
    have hq : 0 < q.length := List.length_pos.2 (h q (List.mem_cons_self q qs))
    have := ih (fun x hx => h x (List.mem_cons_of_mem q hx))
    simp only [List.length_cons, List.map_cons, List.sum_cons]
    omega

theorem readSeq_at (g : FileGroup) (p : String) (b : List UInt8)
    (hb : g.MustBytes p = some b) (qs : List (List UInt8)) :
    ∀ (f : file) (c : Nat), AtCursor g p b f c →
      ∃ (f1 : file) (rs : List (List UInt8 × Int × Option GoError)),
        readSeq f qs = some (f1, rs) ∧ rs.length = qs.length ∧
        AtCursor g p b f1 (min b.length (c + (qs.map List.length).sum)) ∧
        (qs ≠ [] →
          f1.buffer = some ⟨b, ((min b.length (c + (qs.map List.length).sum) : Nat) : Int)⟩) ∧
        (rs.map (fun r => r.2.1)).sum =
          ((min b.length (c + (qs.map List.length).sum) - c : Nat) : Int) ∧
        rs.flatMap returned =
          (b.drop c).take (min b.length (c + (qs.map List.length).sum) - c) := by
  induction qs with
  | nil =>
    intro f c hf
    have hc : c ≤ b.length := hf.2.2.2.1
    refine ⟨f, [], rfl, rfl, ?_, fun h => absurd rfl h, ?_, ?_⟩
    · simpa [Nat.min_eq_right hc] using hf
    · simp
    · simp
  | cons q qs ih =>
    intro f c hf
    have hc : c ≤ b.length := hf.2.2.2.1
    obtain ⟨f2, hR, hf2, hbuf2⟩ := Read_at g p b q f c hf hb
    obtain ⟨f1, rs, hrs, hlen, hat, hbuf, hsum, hcat⟩ :=
      ih f2 (c + min q.length (b.length - c)) hf2
    have hcur : min b.length (c + min q.length (b.length - c) + (qs.map List.length).sum) =
        min b.length (c + ((q :: qs).map List.length).sum) := by
      simp only [List.map_cons, List.sum_cons]
      omega
    rw [hcur] at hat hbuf hsum hcat
    refine ⟨f1,
      ((b.drop c).take (min q.length (b.length - c)) ++ q.drop (min q.length (b.length - c)),
        ((min q.length (b.length - c) : Nat) : Int),
        if c = b.length then some GoError.EOF else none) :: rs, ?_, ?_, hat, ?_, ?_, ?_⟩
    · simp only [readSeq, hR, hrs]
    · simp [hlen]
    · intro _
      cases qs with
      | nil =>
        simp only [readSeq, Option.some.injEq, Prod.mk.injEq] at hrs
        rw [← hrs.1, hbuf2]
        simp only [List.map_cons, List.map_nil, List.sum_cons, List.sum_nil, Nat.add_zero]
        congr 3
        omega
      | cons q' qs' => exact hbuf (by simp)
    · simp only [List.map_cons, List.sum_cons, hsum]
      have : c + min q.length (b.length - c) ≤
          min b.length (c + ((q :: qs).map List.length).sum) := by
        simp only [List.map_cons, List.sum_cons]
        omega
      omega
    · simp only [List.flatMap_cons, hcat, returned, Int.toNat_ofNat]
      have hlen1 : ((b.drop c).take (min q.length (b.length - c))).length =
          min q.length (b.length - c) := by
        simp [List.length_take, List.length_drop]
      rw [List.take_append_of_le_length (by rw [hlen1]), List.take_of_length_le (by rw [hlen1])]
      have hsplit : min b.length (c + ((q :: qs).map List.length).sum) - c =
          min q.length (b.length - c) +
            (min b.length (c + ((q :: qs).map List.length).sum) -
              (c + min q.length (b.length - c))) := by
        simp only [List.map_cons, List.sum_cons]
        omega
      rw [hsplit, List.take_add, List.drop_drop]

/-- The first scenario, read through: three reads with a two-byte buffer on the
leaf `a/b.txt` return `104, 105`, then `33`, then end-of-content. -/
theorem scenario_leaf_read_trace :
    scenarioGroup.Open cleanPath "a/b.txt" = (some scenarioLeafHandle, none) ∧
    readSeq scenarioLeafHandle [[0, 0], [0, 0], [0, 0]] =
      some ({ scenarioLeafHandle with buffer := some ⟨[104, 105, 33], 3⟩ },
        [([104, 105], 2, none), ([33, 0], 1, none), ([0, 0], 0, some GoError.EOF)]) :=
  ⟨rfl, rfl⟩

/-- C10: let `p` be an entry without children whose stored bytes are `b`, and
`f` the handle `Open(p)` returns (no buffer yet). After any successive `Read`
calls with non-empty buffers `qs`, none of which aborts, the cursor equals the
sum of the counts returned, which is `min(len b, total buffer size)`, and the
bytes returned so far are the first that many bytes of `b`. The next `Read`
with a non-empty buffer `q` copies the next `min(len q, len b - cursor)` bytes
of `b` from the cursor, returns that count and advances the cursor by it; it
signals end-of-content exactly when the cursor has reached `len b`, by which
point the bytes returned are `b`, and it makes progress otherwise, so that
after `len b` calls every further call signals end-of-content. -/
theorem Read_stream (P : PathPkg) (g : FileGroup) (p : String) (b : List UInt8)
    (hp : p ∈ g.Entries) (hleaf : ∀ e ∈ g.Entries, ¬ ∃ t : String, e = p ++ "/" ++ t)
    (hb : g.MustBytes p = some b) :
    ∃ f : file, g.Open P p = (some f, none) ∧ f.buffer = none ∧
      ∀ (qs : List (List UInt8)) (q : List UInt8), (∀ x ∈ qs, x ≠ []) → q ≠ [] →
        ∃ (f1 : file) (rs : List (List UInt8 × Int × Option GoError)) (f2 : file),
          readSeq f qs = some (f1, rs) ∧ rs.length = qs.length ∧
          (rs.map (fun r => r.2.1)).sum = ((cursorAfter b qs : Nat) : Int) ∧
          (qs ≠ [] → f1.buffer = some ⟨b, ((cursorAfter b qs : Nat) : Int)⟩) ∧
          rs.flatMap returned = b.take (cursorAfter b qs) ∧
          f1.Read q =
            some (f2,
              (b.drop (cursorAfter b qs)).take
                  (min q.length (b.length - cursorAfter b qs)) ++
                q.drop (min q.length (b.length - cursorAfter b qs)),
              ((min q.length (b.length - cursorAfter b qs) : Nat) : Int),
              if cursorAfter b qs = b.length then some GoError.EOF else none) ∧
          f2.buffer =
            some ⟨b, ((cursorAfter b qs +
              min q.length (b.length - cursorAfter b qs) : Nat) : Int)⟩ ∧
          (cursorAfter b qs < b.length →
            0 < min q.length (b.length - cursorAfter b qs)) ∧
          (cursorAfter b qs = b.length → rs.flatMap returned = b) ∧
          (b.length ≤ qs.length → cursorAfter b qs = b.length) := by
  have hnil : descendants g.Entries p = [] := (descendants_eq_nil_iff g.Entries p).2 hleaf
  have hopen : g.Open P p = (some ⟨p, ⟨g, P.Dir p⟩, none, some [], true⟩, none) := by
    rw [Open_eq]
    simp [hp, hnil]
  refine ⟨_, hopen, rfl, ?_⟩
  intro qs q hqs hq
  have h0 : AtCursor g p b ⟨p, ⟨g, P.Dir p⟩, none, some [], true⟩ 0 :=
    ⟨rfl, rfl, rfl, Nat.zero_le _, Or.inr ⟨rfl, rfl⟩⟩
  obtain ⟨f1, rs, hrs, hlen, hat, hbuf, hsum, hcat⟩ := readSeq_at g p b hb qs _ 0 h0
  simp only [Nat.zero_add, Nat.sub_zero, List.drop_zero] at hat hbuf hsum hcat
  obtain ⟨f2, hR, -, hbuf2⟩ := Read_at g p b q f1 _ hat hb
  have hqpos : 0 < q.length := List.length_pos.2 hq
  refine ⟨f1, rs, f2, hrs, hlen, hsum, hbuf, hcat, hR, hbuf2, ?_, ?_, ?_⟩
  · intro hlt
    unfold cursorAfter at hlt ⊢
    omega
  · intro heq
    unfold cursorAfter at heq
    rw [hcat, heq, List.take_length]
  · intro hle
    have := length_le_sum_lengths qs hqs
    unfold cursorAfter
    omega

/-- Witness for C10: the leaf `a/b.txt` of the first scenario, whose stored
bytes are `104, 105, 33`. -/
theorem Read_stream_witness :
    "a/b.txt" ∈ scenarioGroup.Entries ∧
    (∀ e ∈ scenarioGroup.Entries, ¬ ∃ t : String, e = "a/b.txt" ++ "/" ++ t) ∧
    scenarioGroup.MustBytes "a/b.txt" = some [104, 105, 33] ∧
    ∃ f : file, scenarioGroup.Open cleanPath "a/b.txt" = (some f, none) ∧ f.buffer = none ∧
      ∀ (qs : List (List UInt8)) (q : List UInt8), (∀ x ∈ qs, x ≠ []) → q ≠ [] →
        ∃ (f1 : file) (rs : List (List UInt8 × Int × Option GoError)) (f2 : file),
          readSeq f qs = some (f1, rs) ∧ rs.length = qs.length ∧
          (rs.map (fun r => r.2.1)).sum = ((cursorAfter [104, 105, 33] qs : Nat) : Int) ∧
          (qs ≠ [] → f1.buffer = some ⟨[104, 105, 33], ((cursorAfter [104, 105, 33] qs : Nat) : Int)⟩) ∧
          rs.flatMap returned = ([104, 105, 33] : List UInt8).take (cursorAfter [104, 105, 33] qs) ∧
          f1.Read q =
            some (f2,
              (([104, 105, 33] : List UInt8).drop (cursorAfter [104, 105, 33] qs)).take
                  (min q.length (([104, 105, 33] : List UInt8).length - cursorAfter [104, 105, 33] qs)) ++
                q.drop (min q.length (([104, 105, 33] : List UInt8).length - cursorAfter [104, 105, 33] qs)),
              ((min q.length (([104, 105, 33] : List UInt8).length - cursorAfter [104, 105, 33] qs) : Nat) : Int),
              if cursorAfter [104, 105, 33] qs = ([104, 105, 33] : List UInt8).length then some GoError.EOF else none) ∧
          f2.buffer =
            some ⟨[104, 105, 33], ((cursorAfter [104, 105, 33] qs +
              min q.length (([104, 105, 33] : List UInt8).length - cursorAfter [104, 105, 33] qs) : Nat) : Int)⟩ ∧
          (cursorAfter [104, 105, 33] qs < ([104, 105, 33] : List UInt8).length →
            0 < min q.length (([104, 105, 33] : List UInt8).length - cursorAfter [104, 105, 33] qs)) ∧
          (cursorAfter [104, 105, 33] qs = ([104, 105, 33] : List UInt8).length → rs.flatMap returned = [104, 105, 33]) ∧
          (([104, 105, 33] : List UInt8).length ≤ qs.length → cursorAfter [104, 105, 33] qs = ([104, 105, 33] : List UInt8).length) :=
  have hleaf : ∀ e ∈ scenarioGroup.Entries, ¬ ∃ t : String, e = "a/b.txt" ++ "/" ++ t := by
    intro e he
    rw [← HasPrefix_iff]
    revert e
    decide
  ⟨by decide, hleaf, rfl,
    Read_stream cleanPath scenarioGroup "a/b.txt" [104, 105, 33] (by decide) hleaf rfl⟩

/-! ## Calls between opening and closing: what they keep -/

theorem openT_fst (f : file) : f.openT.1 = f.open := by
  unfold file.openT file.open
  split
  · rfl
  · split
    · rfl
    · split <;> rfl

theorem openT_snd (f : file) :
    f.openT.2 = if f.exists_ && f.buffer.isNone then [f.name] else [] := by
  unfold file.openT
  cases hex : f.exists_ with
  | false => simp
  | true =>
    cases hb : f.buffer with
    | some r => simp
    | none =>
      cases hm : f.dir.group.MustBytes f.name <;> simp

theorem ReadT_eq (f : file) (p : List UInt8) : f.ReadT p = (f.Read p, f.openT.2) := by
  unfold file.ReadT file.Read
  rw [← openT_fst]
  rcases f.openT with ⟨o, t⟩
  rcases o with _ | ⟨f1, e⟩
  · rfl
  · cases e with
    | some err => rfl
    | none =>
      dsimp only
      cases f1.buffer <;> rfl

theorem SeekT_eq (f : file) (offset whence : Int) :
    f.SeekT offset whence = (f.Seek offset whence, f.openT.2) := by
  unfold file.SeekT file.Seek
  rw [← openT_fst]
  rcases f.openT with ⟨o, t⟩
  rcases o with _ | ⟨f1, e⟩
  · rfl
  · cases e with
    | some err => rfl
    | none =>
      dsimp only
      cases f1.buffer <;> rfl

theorem SizeT_eq (f : file) :
    f.SizeT = (f.Size, if f.IsDir = true then [] else f.openT.2) := by
  unfold file.SizeT file.Size
  cases hd : f.IsDir with
  | true => simp
  | false =>
    simp only [Bool.false_eq_true, if_false]
    rw [← openT_fst]
    rcases f.openT with ⟨o, t⟩
    rcases o with _ | ⟨f1, e⟩
    · rfl
    · cases e with
      | some err => rfl
      | none =>
        dsimp only
        cases f1.buffer <;> rfl

theorem Reader_Read_s (r : Reader) (p : List UInt8) : (r.Read p).1.s = r.s := by
  unfold Reader.Read
  split <;> rfl

theorem Reader_Seek_s (r : Reader) (offset whence : Int) :
    (r.Seek offset whence).1.s = r.s := by
  unfold Reader.Seek
  dsimp only
  split
  · rfl
  · split <;> rfl

theorem Evolves_refl (f : file) : Evolves f f :=
  ⟨rfl, rfl, rfl, rfl, fun r h => ⟨r, h, rfl⟩, fun h r1 h1 => by rw [h] at h1; cases h1⟩

theorem Evolves_trans (f f1 f2 : file) (h1 : Evolves f f1) (h2 : Evolves f1 f2) :
    Evolves f f2 := by
  obtain ⟨hn1, hd1, he1, hc1, hs1, hm1⟩ := h1
  obtain ⟨hn2, hd2, he2, hc2, hs2, hm2⟩ := h2
  refine ⟨hn2.trans hn1, hd2.trans hd1, he2.trans he1, hc2.trans hc1, ?_, ?_⟩
  · intro r hr
    obtain ⟨r1, hr1, hrs1⟩ := hs1 r hr
    obtain ⟨r2, hr2, hrs2⟩ := hs2 r1 hr1
    exact ⟨r2, hr2, hrs2.trans hrs1⟩
  · intro hnone r2 hr2
    cases hb1 : f1.buffer with
    | none =>
      have := hm2 hb1 r2 hr2
      rw [hd1, hn1] at this
      exact this
    | some r1 =>
      obtain ⟨r2', hr2', hrs2⟩ := hs2 r1 hb1
      rw [hr2] at hr2'
      cases hr2'
      rw [hrs2]
      exact hm1 hnone r1 hb1

theorem Evolves_set_buffer (f f1 : file) (r r1 : Reader) (h : Evolves f f1)
    (hb : f1.buffer = some r) (hs : r1.s = r.s) :
    Evolves f { f1 with buffer := some r1 } := by
  obtain ⟨hn, hd, he, hc, hs1, hm1⟩ := h
  refine ⟨hn, hd, he, hc, ?_, ?_⟩
  · intro r0 hr0
    obtain ⟨r', hr', hrs'⟩ := hs1 r0 hr0
    rw [hb] at hr'
    cases hr'
    exact ⟨r1, rfl, hs.trans hrs'⟩
  · intro hnone r2 hr2
    cases hr2
    rw [hs]
    exact hm1 hnone r hb

theorem open_evolves (f f1 : file) (e : Option GoError) (h : f.open = some (f1, e)) :
    Evolves f f1 ∧ (e = none → ∃ r, f1.buffer = some r) ∧
      (e = none → f.exists_ = true) := by
  cases hex : f.exists_ with
  | false =>
    rw [open_of_not_exists f hex] at h
    simp only [Option.some.injEq, Prod.mk.injEq] at h
    obtain ⟨rfl, rfl⟩ := h
    exact ⟨Evolves_refl f, (fun h => by cases h), (fun h => by cases h)⟩
  | true =>
    rw [open_of_exists f hex] at h
    cases hb : f.buffer with
    | some r =>
      simp only [hb, Option.some.injEq, Prod.mk.injEq] at h
      obtain ⟨rfl, rfl⟩ := h
      exact ⟨Evolves_refl f, fun _ => ⟨r, hb⟩, fun _ => rfl⟩
    | none =>
      cases hm : f.dir.group.MustBytes f.name with
      | none => simp [hb, hm] at h
      | some b =>
        simp only [hb, hm, Option.some.injEq, Prod.mk.injEq] at h
        obtain ⟨rfl, rfl⟩ := h
        refine ⟨⟨rfl, rfl, rfl, rfl, ?_, ?_⟩, fun _ => ⟨_, rfl⟩, fun _ => rfl⟩
        · intro r hr
          rw [hb] at hr
          cases hr
        · intro _ r1 hr1
          cases hr1
          exact hm

theorem Read_evolves (f : file) (p : List UInt8)
    (res : file × List UInt8 × Int × Option GoError) (h : f.Read p = some res) :
    Evolves f res.1 := by
  unfold file.Read at h
  rcases ho : f.open with _ | ⟨f1, e⟩
  · simp [ho] at h
  · have hev := open_evolves f f1 e ho
    cases e with
    | some err =>
      simp only [ho, Option.some.injEq] at h
      subst h
      exact hev.1
    | none =>
      obtain ⟨r, hr⟩ := hev.2.1 rfl
      simp only [ho, hr, Option.some.injEq] at h
      subst h
      exact Evolves_set_buffer f f1 r _ hev.1 hr (Reader_Read_s r p)

theorem Seek_evolves (f : file) (offset whence : Int)
    (res : file × Int × Option GoError) (h : f.Seek offset whence = some res) :
    Evolves f res.1 := by
  unfold file.Seek at h
  rcases ho : f.open with _ | ⟨f1, e⟩
  · simp [ho] at h
  · have hev := open_evolves f f1 e ho
    cases e with
    | some err =>
      simp only [ho, Option.some.injEq] at h
      subst h
      exact hev.1
    | none =>
      obtain ⟨r, hr⟩ := hev.2.1 rfl
      simp only [ho, hr, Option.some.injEq] at h
      subst h
      exact Evolves_set_buffer f f1 r _ hev.1 hr (Reader_Seek_s r offset whence)

theorem Size_evolves (f : file) (res : file × Int) (h : f.Size = some res) :
    Evolves f res.1 := by
  unfold file.Size at h
  split at h
  · simp only [Option.some.injEq] at h
    subst h
    exact Evolves_refl f
  · rcases ho : f.open with _ | ⟨f1, e⟩
    · simp [ho] at h
    · have hev := open_evolves f f1 e ho
      cases e with
      | some err =>
        simp only [ho, Option.some.injEq] at h
        subst h
        exact hev.1
      | none =>
        obtain ⟨r, hr⟩ := hev.2.1 rfl
        simp only [ho, hr, Option.some.injEq] at h
        subst h
        exact hev.1

theorem call_evolves (f f1 : file) (c : Call) (h : (f.call c).1 = some f1) :
    Evolves f f1 := by
  cases c with
  | Read p =>
    simp only [file.call, ReadT_eq, Option.map_eq_some'] at h
    obtain ⟨res, hres, rfl⟩ := h
    exact Read_evolves f p res hres
  | Seek offset whence =>
    simp only [file.call, SeekT_eq, Option.map_eq_some'] at h
    obtain ⟨res, hres, rfl⟩ := h
    exact Seek_evolves f offset whence res hres
  | Size =>
    simp only [file.call, SizeT_eq, Option.map_eq_some'] at h
    obtain ⟨res, hres, rfl⟩ := h
    exact Size_evolves f res hres

theorem runCalls_evolves (cs : List Call) :
    ∀ (f f1 : file), (runCalls f cs).1 = some f1 → Evolves f f1 := by
  induction cs with
  | nil =>
    intro f f1 h
    simp only [runCalls, Option.some.injEq] at h
    subst h
    exact Evolves_refl f
  | cons c cs ih =>
    intro f f1 h
    unfold runCalls at h
    rcases hc : f.call c with ⟨o, t⟩
    rw [hc] at h
    cases o with
    | none => simp at h
    | some f0 =>
      simp only at h
      have h0 : (f.call c).1 = some f0 := by rw [hc]
      exact Evolves_trans f f0 f1 (call_evolves f f0 c h0) (ih f0 f1 h)

/-- On every handle a reader, once acquired, is over the bytes the resource
group gives for the handle's name. -/
theorem Handle_content (f : file) (hf : Handle f) :
    ∀ r, f.buffer = some r → f.dir.group.MustBytes f.name = some r.s := by
  have step : ∀ f f1 : file, Evolves f f1 →
      (∀ r, f.buffer = some r → f.dir.group.MustBytes f.name = some r.s) →
      ∀ r, f1.buffer = some r → f1.dir.group.MustBytes f1.name = some r.s := by
    intro f f1 hev ih r1 hr1
    obtain ⟨hn, hd, -, -, hs, hm⟩ := hev
    rw [hd, hn]
    cases hb : f.buffer with
    | none => exact hm hb r1 hr1
    | some r =>
      obtain ⟨r1', hr1', hrs⟩ := hs r hb
      rw [hr1] at hr1'
      cases hr1'
      rw [hrs]
      exact ih r hb
  induction hf with
  | opened P g name f h =>
    intro r hr
    rw [(Open_some P g name f h).1] at hr
    cases hr
  | listed f count r c _ hr hc _ =>
    intro r0 hr0
    unfold file.Readdir at hr
    split at hr
    · simp at hr
    · simp only [Prod.mk.injEq, Option.some.injEq, and_true] at hr
      subst hr
      rw [List.mem_map] at hc
      obtain ⟨c', -, rfl⟩ := hc
      cases hr0
  | read f p res _ hr ih => exact step f res.1 (Read_evolves f p res hr) ih
  | seek f offset whence res _ hr ih =>
    exact step f res.1 (Seek_evolves f offset whence res hr) ih
  | closed f _ _ =>
    intro r hr
    cases hr
  | sized f res _ hr ih => exact step f res.1 (Size_evolves f res hr) ih

/-! ## Metadata: `Size` and `Mode` -/

theorem IsDir_false_iff (f : file) :
    f.IsDir = false ↔ f.children = none ∨ f.children = some [] := by
  unfold file.IsDir
  cases hch : f.children with
  | none => simp [len]
  | some l =>
    cases l with
    | nil => simp [len]
    | cons c cs => simp [len]

theorem Size_of_IsDir (f : file) (h : f.IsDir = true) : f.Size = some (f, 0) := by
  simp [file.Size, h]

theorem Size_of_not_exists_eq (f : file) (hd : f.IsDir = false) (he : f.exists_ = false) :
    f.Size = some (f, -1) := by
  simp [file.Size, hd, open_of_not_exists f he]

theorem Size_of_buffer (f : file) (r : Reader) (hd : f.IsDir = false)
    (he : f.exists_ = true) (hb : f.buffer = some r) :
    f.Size = some (f, (r.s.length : Int)) := by
  simp [file.Size, hd, open_of_exists f he, hb, Reader.Size]

theorem Size_of_fresh (f : file) (b : List UInt8) (hd : f.IsDir = false)
    (he : f.exists_ = true) (hb : f.buffer = none)
    (hm : f.dir.group.MustBytes f.name = some b) :
    f.Size = some ({ f with buffer := some (NewReader b) }, (b.length : Int)) := by
  simp [file.Size, hd, open_of_exists f he, hb, hm, Reader.Size, NewReader]

theorem Size_of_abort (f : file) (hd : f.IsDir = false) (he : f.exists_ = true)
    (hb : f.buffer = none) (hm : f.dir.group.MustBytes f.name = none) :
    f.Size = none := by
  simp [file.Size, hd, open_of_exists f he, hb, hm]

/-- C11: `Size` returns `0` on a handle that has children. On a handle without
children whose existence flag is set it returns the byte length of the content
the resource group gives for the handle's path: from a fresh fetch when the
buffer is absent, from the reader when one is held, at any cursor, and so on
every handle a caller can hold. On a handle without children whose existence
flag is false it returns `-1`. -/
theorem Size_cases (f : file) :
    ((∃ c cs, f.children = some (c :: cs)) → f.Size = some (f, 0)) ∧
    ((f.children = none ∨ f.children = some []) → f.exists_ = false →
      f.Size = some (f, -1)) ∧
    (∀ b : List UInt8, (f.children = none ∨ f.children = some []) → f.exists_ = true →
      f.dir.group.MustBytes f.name = some b →
      (f.buffer = none →
        f.Size = some ({ f with buffer := some (NewReader b) }, (b.length : Int))) ∧
      (∀ i : Int, f.buffer = some ⟨b, i⟩ → f.Size = some (f, (b.length : Int))) ∧
      (Handle f → ∃ f1, f.Size = some (f1, (b.length : Int)))) := by
  refine ⟨fun h => Size_of_IsDir f ((IsDir_iff f).2 h),
    fun h he => Size_of_not_exists_eq f ((IsDir_false_iff f).2 h) he, ?_⟩
  intro b h he hm
  have hd := (IsDir_false_iff f).2 h
  refine ⟨fun hb => Size_of_fresh f b hd he hb hm,
    fun i hb => Size_of_buffer f ⟨b, i⟩ hd he hb, fun hf => ?_⟩
  cases hb : f.buffer with
  | none => exact ⟨_, Size_of_fresh f b hd he hb hm⟩
  | some r =>
    have hc := Handle_content f hf r hb
    rw [hm] at hc
    simp only [Option.some.injEq] at hc
    refine ⟨f, ?_⟩
    rw [Size_of_buffer f r hd he hb, ← hc]

/-- Witness for C11: in the first scenario `Size` is `0` on the directory `a`,
`3` on the leaf `a/b.txt` both before a read and after reads moved the cursor
to the end, and `-1` on a record without children and without the flag. -/
theorem Size_cases_witness :
    scenarioRootHandle.Size = some (scenarioRootHandle, 0) ∧
    scenarioLeafHandle.Size =
      some ({ scenarioLeafHandle with buffer := some (NewReader [104, 105, 33]) }, 3) ∧
    ({ scenarioLeafHandle with buffer := some ⟨[104, 105, 33], 3⟩ } : file).Size =
      some ({ scenarioLeafHandle with buffer := some ⟨[104, 105, 33], 3⟩ }, 3) ∧
    ({ scenarioLeafHandle with exists_ := false } : file).Size =
      some ({ scenarioLeafHandle with exists_ := false }, -1) :=
  ⟨(Size_cases scenarioRootHandle).1 ⟨"a/b.txt", ["a/c/d.txt"], rfl⟩,
    ((Size_cases scenarioLeafHandle).2.2 [104, 105, 33] (Or.inr rfl) rfl rfl).1 rfl,
    ((Size_cases { scenarioLeafHandle with buffer := some ⟨[104, 105, 33], 3⟩ }).2.2
      [104, 105, 33] (Or.inr rfl) rfl rfl).2.1 3 rfl,
    (Size_cases { scenarioLeafHandle with exists_ := false }).2.1 (Or.inr rfl) rfl⟩

theorem Mode_eq (f : file) : f.Mode = if f.IsDir = true then ModeDir else 0 := by
  unfold file.Mode
  cases f.IsDir <;> simp

/-- The directory bit of `Mode` is set exactly on the handles that have
children; every other bit is clear on every handle. -/
theorem Mode_dir_bit_iff (f : file) :
    (f.Mode &&& ModeDir ≠ 0 ↔ ∃ c cs, f.children = some (c :: cs)) ∧
    f.Mode &&& (ModeDir - 1) = 0 := by
  rw [Mode_eq, ← IsDir_iff]
  cases f.IsDir
  · simp
  · refine ⟨by simp [ModeDir], by decide⟩

/-- C12, at the leaf `a/b.txt` of the first scenario: the handle `Open` returns
has no children and `Mode` returns `0` on it, a mode with none of the read bits
of `0444` set, although the comment on `Mode` announces `0444`. -/
theorem Mode_leaf_is_zero :
    scenarioGroup.Open cleanPath "a/b.txt" = (some scenarioLeafHandle, none) ∧
    scenarioLeafHandle.children = some [] ∧
    scenarioLeafHandle.Mode = 0 ∧
    scenarioLeafHandle.Mode ≠ 0o444 ∧
    scenarioLeafHandle.Mode &&& 0o444 = 0 := by
  refine ⟨rfl, rfl, rfl, by decide, by decide⟩

/-- C13, at the entry `a` of a group that cannot produce its bytes: the handle
`Open` returns has the existence flag set and no children, and both `Size` and
`Read` abort on it instead of returning. More generally `open` has no error
path for a failed fetch: on a handle with the flag set and no children `Size`
never returns a negative value and `Read` returns no error other than
end-of-content. -/
theorem Size_Read_abort_without_bytes :
    brokenGroup.Open cleanPath "a" = (some brokenHandle, none) ∧
    brokenHandle.exists_ = true ∧ brokenHandle.children = some [] ∧
    brokenGroup.MustBytes "a" = none ∧
    brokenHandle.Size = none ∧ brokenHandle.Read [0] = none ∧
    (∀ f : file, f.exists_ = true → f.IsDir = false →
      (∀ res, f.Size = some res → 0 ≤ res.2) ∧
      (∀ p res, f.Read p = some res →
        res.2.2.2 = none ∨ res.2.2.2 = some GoError.EOF)) := by
  refine ⟨rfl, rfl, rfl, rfl, rfl, rfl, ?_⟩
  intro f he hd
  constructor
  · intro res hres
    unfold file.Size at hres
    simp only [hd, Bool.false_eq_true, if_false] at hres
    rcases open_exists_cases f he with h0 | ⟨f1, r, h1, hb, -⟩
    · simp [h0] at hres
    · simp only [h1, hb, Option.some.injEq] at hres
      subst hres
      simp [Reader.Size]
  · intro p res hres
    unfold file.Read at hres
    rcases open_exists_cases f he with h0 | ⟨f1, r, h1, hb, -⟩
    · simp [h0] at hres
    · simp only [h1, hb, Option.some.injEq] at hres
      subst hres
      unfold Reader.Read
      split
      · exact Or.inr rfl
      · exact Or.inl rfl

/-! ## `Close` -/

/-- C14: on every handle, whatever its buffer, children and flag, `Close`
returns a nil error and a handle without buffer whose name, directory,
existence flag and children are unchanged; `IsDir`, `Name` and the result of
`Readdir` are the same before and after. -/
theorem Close_frame (P : PathPkg) (f : file) (count : Int) :
    f.Close.2 = none ∧ f.Close.1.buffer = none ∧
    f.Close.1.name = f.name ∧ f.Close.1.dir = f.dir ∧
    f.Close.1.exists_ = f.exists_ ∧ f.Close.1.children = f.children ∧
    f.Close.1.IsDir = f.IsDir ∧ f.Close.1.Name P = f.Name P ∧
    f.Close.1.Readdir count = f.Readdir count :=
  ⟨rfl, rfl, rfl, rfl, rfl, rfl, rfl, rfl, rfl⟩

theorem open_total (f : file) (b : List UInt8) (he : f.exists_ = true)
    (hm : f.dir.group.MustBytes f.name = some b) :
    ∃ f0 r, f.open = some (f0, none) ∧ f0.buffer = some r := by
  rw [open_of_exists f he]
  cases hb : f.buffer with
  | some r => exact ⟨f, r, rfl, hb⟩
  | none =>
    exact ⟨{ f with buffer := some (NewReader b) }, NewReader b, by simp [hm], rfl⟩

theorem call_total (f : file) (b : List UInt8) (c : Call) (he : f.exists_ = true)
    (hm : f.dir.group.MustBytes f.name = some b) :
    ∃ f1, (f.call c).1 = some f1 := by
  obtain ⟨f0, r, ho, hr⟩ := open_total f b he hm
  cases c with
  | Read p =>
    simp only [file.call, ReadT_eq, Option.map_eq_some']
    have h : f.Read p =
        some ({ f0 with buffer := some (r.Read p).1 }, (r.Read p).2.1, (r.Read p).2.2.1,
          (r.Read p).2.2.2) := by
      simp only [file.Read, ho, hr]
    exact ⟨_, _, h, rfl⟩
  | Seek offset whence =>
    simp only [file.call, SeekT_eq, Option.map_eq_some']
    have h : f.Seek offset whence =
        some ({ f0 with buffer := some (r.Seek offset whence).1 },
          (r.Seek offset whence).2.1, (r.Seek offset whence).2.2) := by
      simp only [file.Seek, ho, hr]
    exact ⟨_, _, h, rfl⟩
  | Size =>
    simp only [file.call, SizeT_eq, Option.map_eq_some']
    cases hd : f.IsDir with
    | true => exact ⟨_, _, Size_of_IsDir f hd, rfl⟩
    | false =>
      have h : f.Size = some (f0, r.Size) := by
        simp only [file.Size, hd, ho, hr, Bool.false_eq_true, if_false]
      exact ⟨_, _, h, rfl⟩

theorem runCalls_total (b : List UInt8) (cs : List Call) :
    ∀ f : file, f.exists_ = true → f.dir.group.MustBytes f.name = some b →
      ∃ f1, (runCalls f cs).1 = some f1 := by
  induction cs with
  | nil =>
    intro f _ _
    exact ⟨f, rfl⟩
  | cons c cs ih =>
    intro f he hm
    obtain ⟨f0, h0⟩ := call_total f b c he hm
    obtain ⟨hn, hd, hex, -, -, -⟩ := call_evolves f f0 c h0
    obtain ⟨f1, h1⟩ := ih f0 (hex.trans he) (by rw [hd, hn]; exact hm)
    refine ⟨f1, ?_⟩
    unfold runCalls
    rcases hc : f.call c with ⟨o, t⟩
    rw [hc] at h0
    simp only at h0
    subst h0
    exact h1

/-! ## Reading again after `Close` -/

theorem readToEnd_at (g : FileGroup) (p : String) (b : List UInt8)
    (hb : g.MustBytes p = some b) (k : Nat) (hk : 0 < k) :
    ∀ (fuel : Nat) (f : file) (c : Nat), AtCursor g p b f c → b.length - c < fuel →
      ∃ f1, readToEnd k fuel f = some (f1, b.drop c, GoError.EOF) ∧
        AtCursor g p b f1 b.length := by
  intro fuel
  induction fuel with
  | zero =>
    intro f c _ hlt
    omega
  | succ fuel ih =>
    intro f c hf hlt
    have hc : c ≤ b.length := hf.2.2.2.1
    obtain ⟨f2, hR, hf2, -⟩ := Read_at g p b (List.replicate k 0) f c hf hb
    simp only [List.length_replicate] at hR hf2
    by_cases hend : c = b.length
    · subst hend
      refine ⟨f2, ?_, by simpa using hf2⟩
      simp [readToEnd, hR]
    · have hn : 0 < min k (b.length - c) := by omega
      obtain ⟨f1, h1, hf1⟩ := ih f2 (c + min k (b.length - c)) hf2 (by omega)
      refine ⟨f1, ?_, hf1⟩
      simp only [readToEnd, hR, hend, if_false, h1, Int.toNat_ofNat]
      have hlen1 : ((b.drop c).take (min k (b.length - c))).length =
          min k (b.length - c) := by
        simp [List.length_take, List.length_drop]
      rw [List.take_append_of_le_length (by rw [hlen1]), List.take_of_length_le (by rw [hlen1])]
      have hdd : b.drop (c + min k (b.length - c)) =
          (b.drop c).drop (min k (b.length - c)) := by
        rw [List.drop_drop]
      rw [hdd, List.take_append_drop]

/-- C15: let `f` be the handle `Open(p)` returns for an entry `p` whose stored
bytes are `b`. After any sequence of `Read`, `Seek` and `Size` calls on it,
none of which aborts, `Close` followed by `Read` returns exactly what `Read`
returns on the fresh handle: the first `min(len q, len b)` bytes of `b`, from offset `0`. Reading to
end-of-content with a non-empty buffer yields `b`, and after `Close`, whatever
calls came before it, reading to end-of-content yields `b` again. -/
theorem Read_after_Close (P : PathPkg) (g : FileGroup) (p : String) (b : List UInt8)
    (f : file) (hopen : g.Open P p = (some f, none)) (hp : p ∈ g.Entries)
    (hb : g.MustBytes p = some b) :
    (∀ (cs : List Call) (f1 : file), (runCalls f cs).1 = some f1 → ∀ q : List UInt8,
      ∃ f2 f3 : file,
        f1.Close.1.Read q =
          some (f2, b.take (min q.length b.length) ++ q.drop (min q.length b.length),
            ((min q.length b.length : Nat) : Int),
            if 0 = b.length then some GoError.EOF else none) ∧
        f.Read q =
          some (f3, b.take (min q.length b.length) ++ q.drop (min q.length b.length),
            ((min q.length b.length : Nat) : Int),
            if 0 = b.length then some GoError.EOF else none)) ∧
    (∀ k fuel : Nat, 0 < k → b.length < fuel →
      (∃ f1 f2 : file, readToEnd k fuel f = some (f1, b, GoError.EOF) ∧
        readToEnd k fuel f1.Close.1 = some (f2, b, GoError.EOF)) ∧
      (∀ (cs : List Call) (f1 : file), (runCalls f cs).1 = some f1 →
        ∃ f2 : file, readToEnd k fuel f1.Close.1 = some (f2, b, GoError.EOF))) ∧
    (∀ cs : List Call, ∃ f1 : file, (runCalls f cs).1 = some f1) := by
  obtain ⟨rfl, -⟩ := Open_some P g p f hopen
  have hfresh : AtCursor g p b
      ⟨p, ⟨g, P.Dir p⟩, none, some (descendants g.Entries p), decide (p ∈ g.Entries)⟩ 0 :=
    ⟨rfl, rfl, by simp [hp], Nat.zero_le _, Or.inr ⟨rfl, rfl⟩⟩
  have hclosed : ∀ f1 : file,
      Evolves ⟨p, ⟨g, P.Dir p⟩, none, some (descendants g.Entries p),
        decide (p ∈ g.Entries)⟩ f1 → AtCursor g p b f1.Close.1 0 := by
    intro f1 hev
    obtain ⟨hn, hd, he, -, -, -⟩ := hev
    refine ⟨hn, ?_, ?_, Nat.zero_le _, Or.inr ⟨rfl, rfl⟩⟩
    · show f1.dir.group = g
      rw [hd]
    · show f1.exists_ = true
      rw [he]
      simp [hp]
  refine ⟨?_, ?_, fun cs => runCalls_total b cs _ (by simp [hp]) hb⟩
  · intro cs f1 hrun q
    obtain ⟨f2, h2, -, -⟩ :=
      Read_at g p b q f1.Close.1 0 (hclosed f1 (runCalls_evolves cs _ f1 hrun)) hb
    obtain ⟨f3, h3, -, -⟩ := Read_at g p b q _ 0 hfresh hb
    exact ⟨f2, f3, by simpa using h2, by simpa using h3⟩
  · intro k fuel hk hfuel
    constructor
    · obtain ⟨f1, h1, hf1⟩ := readToEnd_at g p b hb k hk fuel _ 0 hfresh (by omega)
      have hc1 : AtCursor g p b f1.Close.1 0 :=
        ⟨hf1.1, hf1.2.1, hf1.2.2.1, Nat.zero_le _, Or.inr ⟨rfl, rfl⟩⟩
      obtain ⟨f2, h2, -⟩ := readToEnd_at g p b hb k hk fuel _ 0 hc1 (by omega)
      exact ⟨f1, f2, by simpa using h1, by simpa using h2⟩
    · intro cs f1 hrun
      obtain ⟨f2, h2, -⟩ := readToEnd_at g p b hb k hk fuel _ 0
        (hclosed f1 (runCalls_evolves cs _ f1 hrun)) (by omega)
      exact ⟨f2, by simpa using h2⟩

/-- Witness for C15: the leaf `a/b.txt` of the first scenario. -/
theorem Read_after_Close_witness :
    scenarioGroup.Open cleanPath "a/b.txt" = (some scenarioLeafHandle, none) ∧
    "a/b.txt" ∈ scenarioGroup.Entries ∧
    scenarioGroup.MustBytes "a/b.txt" = some [104, 105, 33] ∧
    (∀ (cs : List Call) (f1 : file), (runCalls scenarioLeafHandle cs).1 = some f1 → ∀ q : List UInt8,
      ∃ f2 f3 : file,
        f1.Close.1.Read q =
          some (f2, ([104, 105, 33] : List UInt8).take (min q.length ([104, 105, 33] : List UInt8).length) ++ q.drop (min q.length ([104, 105, 33] : List UInt8).length),
            ((min q.length ([104, 105, 33] : List UInt8).length : Nat) : Int),
            if 0 = ([104, 105, 33] : List UInt8).length then some GoError.EOF else none) ∧
        scenarioLeafHandle.Read q =
          some (f3, ([104, 105, 33] : List UInt8).take (min q.length ([104, 105, 33] : List UInt8).length) ++ q.drop (min q.length ([104, 105, 33] : List UInt8).length),
            ((min q.length ([104, 105, 33] : List UInt8).length : Nat) : Int),
            if 0 = ([104, 105, 33] : List UInt8).length then some GoError.EOF else none)) ∧
    (∀ k fuel : Nat, 0 < k → ([104, 105, 33] : List UInt8).length < fuel →
      (∃ f1 f2 : file, readToEnd k fuel scenarioLeafHandle = some (f1, ([104, 105, 33] : List UInt8), GoError.EOF) ∧
        readToEnd k fuel f1.Close.1 = some (f2, ([104, 105, 33] : List UInt8), GoError.EOF)) ∧
      (∀ (cs : List Call) (f1 : file), (runCalls scenarioLeafHandle cs).1 = some f1 →
        ∃ f2 : file, readToEnd k fuel f1.Close.1 = some (f2, ([104, 105, 33] : List UInt8), GoError.EOF))) ∧
    (∀ cs : List Call, ∃ f1 : file, (runCalls scenarioLeafHandle cs).1 = some f1) :=
  ⟨rfl, by decide, rfl,
    Read_after_Close cleanPath scenarioGroup "a/b.txt" [104, 105, 33] scenarioLeafHandle
      rfl (by decide) rfl⟩

/-- The first scenario, read twice: reading `a/b.txt` to the end, seeking,
closing and reading to the end again gives the stored bytes both times. -/
theorem scenario_leaf_read_twice :
    readToEnd 2 4 scenarioLeafHandle =
      some ({ scenarioLeafHandle with buffer := some ⟨[104, 105, 33], 3⟩ },
        [104, 105, 33], GoError.EOF) ∧
    (runCalls scenarioLeafHandle [Call.Read [0, 0], Call.Seek 1 0, Call.Size]).1 =
      some { scenarioLeafHandle with buffer := some ⟨[104, 105, 33], 1⟩ } ∧
    readToEnd 2 4
        ({ scenarioLeafHandle with buffer := some ⟨[104, 105, 33], 1⟩ } : file).Close.1 =
      some ({ scenarioLeafHandle with buffer := some ⟨[104, 105, 33], 3⟩ },
        [104, 105, 33], GoError.EOF) :=
  ⟨rfl, rfl, rfl⟩

/-! ## Seeking past the end -/

theorem open_buffer_content (f : file) (b : List UInt8) (hf : Handle f)
    (he : f.exists_ = true) (hm : f.dir.group.MustBytes f.name = some b) :
    ∃ i : Int, f.open = some ({ f with buffer := some ⟨b, i⟩ }, none) := by
  rw [open_of_exists f he]
  cases hb : f.buffer with
  | none => exact ⟨0, by simp [hm, NewReader]⟩
  | some r =>
    have hc := Handle_content f hf r hb
    rw [hm] at hc
    simp only [Option.some.injEq] at hc
    refine ⟨r.i, ?_⟩
    have hr : (⟨b, r.i⟩ : Reader) = r := by rw [hc]
    have hf1 : ({ f with buffer := some ⟨b, r.i⟩ } : file) = f := by
      rw [hr, ← hb]
    rw [hf1]

/-- C16: on every handle a caller can hold whose existence flag is set and
whose content `b` the resource group produces, `Seek(k, SeekStart)` with an
offset `k` beyond `len b` succeeds and returns `k`, leaving the reader at index
`k`; every following `Read` returns `0` bytes and the end-of-content signal,
leaving the caller's buffer and the handle untouched. -/
theorem Seek_past_end (f : file) (b : List UInt8) (k : Int) (hf : Handle f)
    (he : f.exists_ = true) (hm : f.dir.group.MustBytes f.name = some b)
    (hk : (b.length : Int) < k) :
    ∃ f1 : file, f.Seek k 0 = some (f1, k, none) ∧ f1.buffer = some ⟨b, k⟩ ∧
      ∀ q : List UInt8, f1.Read q = some (f1, q, 0, some GoError.EOF) := by
  obtain ⟨i, ho⟩ := open_buffer_content f b hf he hm
  have hk0 : ¬ k < 0 := by omega
  refine ⟨{ f with buffer := some ⟨b, k⟩ }, ?_, rfl, ?_⟩
  · unfold file.Seek
    rw [ho]
    simp [Reader.Seek, hk0]
  · intro q
    have he1 : ({ f with buffer := some ⟨b, k⟩ } : file).exists_ = true := he
    unfold file.Read
    rw [open_of_exists _ he1]
    have hge : k ≥ (b.length : Int) := by omega
    simp [Reader.Read, hge]

/-- Witness for C16: the leaf `a/b.txt` of the first scenario, of length `3`,
and the offset `5`. -/
theorem Seek_past_end_witness :
    Handle scenarioLeafHandle ∧ scenarioLeafHandle.exists_ = true ∧
    scenarioLeafHandle.dir.group.MustBytes scenarioLeafHandle.name =
      some [104, 105, 33] ∧
    ((([104, 105, 33] : List UInt8).length : Int) < 5) ∧
    ∃ f1 : file, scenarioLeafHandle.Seek 5 0 = some (f1, 5, none) ∧
      f1.buffer = some ⟨[104, 105, 33], 5⟩ ∧
      ∀ q : List UInt8, f1.Read q = some (f1, q, 0, some GoError.EOF) :=
  ⟨Handle.opened cleanPath scenarioGroup "a/b.txt" scenarioLeafHandle rfl, rfl, rfl,
    by decide,
    Seek_past_end scenarioLeafHandle [104, 105, 33] 5
      (Handle.opened cleanPath scenarioGroup "a/b.txt" scenarioLeafHandle rfl) rfl rfl
      (by decide)⟩

/-! ## `Stat` twice -/

theorem Size_exists_result (f f1 : file) (n1 : Int) (hd : f.IsDir = false)
    (he : f.exists_ = true) (h : f.Size = some (f1, n1)) :
    ∃ r, f1.buffer = some r ∧ n1 = (r.s.length : Int) := by
  unfold file.Size at h
  simp only [hd, Bool.false_eq_true, if_false] at h
  rcases open_exists_cases f he with h0 | ⟨f0, r, h1, hb, -⟩
  · simp [h0] at h
  · simp only [h1, hb, Option.some.injEq, Prod.mk.injEq] at h
    obtain ⟨rfl, rfl⟩ := h
    exact ⟨r, hb, rfl⟩

/-- C17: `Stat` returns the handle itself and a nil error. If `Size` on the
result of a first `Stat` returns `n1`, then after any further `Read`, `Seek`
and `Size` calls `Size` on the result of a second `Stat` returns `n1` again,
and `IsDir` is the same on both results. -/
theorem Stat_Size_IsDir_stable (f f1 f2 : file) (n1 : Int) (cs : List Call)
    (h1 : f.Stat.1.Size = some (f1, n1)) (h2 : (runCalls f1 cs).1 = some f2) :
    f.Stat = (f, none) ∧ f2.Stat = (f2, none) ∧
    (∃ f3, f2.Stat.1.Size = some (f3, n1)) ∧
    f2.Stat.1.IsDir = f.Stat.1.IsDir := by
  have h1s : f.Size = some (f1, n1) := h1
  have hev1 : Evolves f f1 := Size_evolves f (f1, n1) h1s
  have hev2 : Evolves f1 f2 := runCalls_evolves cs f1 f2 h2
  have hev : Evolves f f2 := Evolves_trans f f1 f2 hev1 hev2
  have hdir : f2.IsDir = f.IsDir := by
    unfold file.IsDir
    rw [hev.2.2.2.1]
  refine ⟨rfl, rfl, ?_, hdir⟩
  show ∃ f3, f2.Size = some (f3, n1)
  cases hd : f.IsDir with
  | true =>
    rw [Size_of_IsDir f hd] at h1s
    simp only [Option.some.injEq, Prod.mk.injEq] at h1s
    rw [← h1s.2]
    exact ⟨f2, Size_of_IsDir f2 (hdir.trans hd)⟩
  | false =>
    cases he : f.exists_ with
    | false =>
      rw [Size_of_not_exists_eq f hd he] at h1s
      simp only [Option.some.injEq, Prod.mk.injEq] at h1s
      rw [← h1s.2]
      exact ⟨f2, Size_of_not_exists_eq f2 (hdir.trans hd) (hev.2.2.1.trans he)⟩
    | true =>
      obtain ⟨r, hr, hn⟩ := Size_exists_result f f1 n1 hd he h1s
      obtain ⟨r2, hr2, hs2⟩ := hev2.2.2.2.2.1 r hr
      refine ⟨f2, ?_⟩
      rw [Size_of_buffer f2 r2 (hdir.trans hd) (hev.2.2.1.trans he) hr2, hs2, hn]

/-- Witness for C17: on the leaf `a/b.txt` of the first scenario the first
`Size` fetches the three bytes; a read and a seek later `Size` is `3` again. -/
theorem Stat_Size_IsDir_stable_witness :
    scenarioLeafHandle.Stat.1.Size =
      some ({ scenarioLeafHandle with buffer := some ⟨[104, 105, 33], 0⟩ }, 3) ∧
    (runCalls { scenarioLeafHandle with buffer := some ⟨[104, 105, 33], 0⟩ }
        [Call.Read [0, 0], Call.Seek 1 1]).1 =
      some { scenarioLeafHandle with buffer := some ⟨[104, 105, 33], 3⟩ } ∧
    scenarioLeafHandle.Stat = (scenarioLeafHandle, none) ∧
    ({ scenarioLeafHandle with buffer := some ⟨[104, 105, 33], 3⟩ } : file).Stat =
      ({ scenarioLeafHandle with buffer := some ⟨[104, 105, 33], 3⟩ }, none) ∧
    (∃ f3, ({ scenarioLeafHandle with buffer := some ⟨[104, 105, 33], 3⟩ } : file).Stat.1.Size =
      some (f3, 3)) ∧
    ({ scenarioLeafHandle with buffer := some ⟨[104, 105, 33], 3⟩ } : file).Stat.1.IsDir =
      scenarioLeafHandle.Stat.1.IsDir :=
  ⟨rfl, rfl,
    Stat_Size_IsDir_stable scenarioLeafHandle
      { scenarioLeafHandle with buffer := some ⟨[104, 105, 33], 0⟩ }
      { scenarioLeafHandle with buffer := some ⟨[104, 105, 33], 3⟩ } 3
      [Call.Read [0, 0], Call.Seek 1 1] rfl rfl⟩

/-! ## The fetch happens at most once -/

theorem call_snd (f : file) (c : Call) :
    (f.call c).2 = [] ∨ ((f.call c).2 = [f.name] ∧ f.exists_ = true ∧ f.buffer = none ∧
      (c = Call.Size → f.IsDir = false)) := by
  have hopen : f.openT.2 = [] ∨
      (f.openT.2 = [f.name] ∧ f.exists_ = true ∧ f.buffer = none) := by
    rw [openT_snd]
    cases he : f.exists_ with
    | false => exact Or.inl (by simp)
    | true =>
      cases hb : f.buffer with
      | some r => exact Or.inl (by simp)
      | none => exact Or.inr ⟨by simp, rfl, rfl⟩
  cases c with
  | Read p =>
    simp only [file.call, ReadT_eq]
    rcases hopen with h | ⟨h, he, hb⟩
    · exact Or.inl h
    · exact Or.inr ⟨h, he, hb, fun hc => by cases hc⟩
  | Seek offset whence =>
    simp only [file.call, SeekT_eq]
    rcases hopen with h | ⟨h, he, hb⟩
    · exact Or.inl h
    · exact Or.inr ⟨h, he, hb, fun hc => by cases hc⟩
  | Size =>
    simp only [file.call, SizeT_eq]
    cases hd : f.IsDir with
    | true => exact Or.inl (by simp)
    | false =>
      simp only [Bool.false_eq_true, if_false]
      rcases hopen with h | ⟨h, he, hb⟩
      · exact Or.inl h
      · exact Or.inr ⟨h, he, hb, fun _ => trivial⟩

theorem call_snd_nil (f : file) (c : Call) (r : Reader) (hb : f.buffer = some r) :
    (f.call c).2 = [] := by
  rcases call_snd f c with h | ⟨-, -, hn, -⟩
  · exact h
  · rw [hb] at hn
    cases hn

theorem call_fetch_buffer (f f1 : file) (c : Call) (he : f.exists_ = true)
    (hd : c = Call.Size → f.IsDir = false) (h : (f.call c).1 = some f1) :
    ∃ r, f1.buffer = some r := by
  cases c with
  | Read p =>
    simp only [file.call, ReadT_eq, Option.map_eq_some'] at h
    obtain ⟨res, hres, rfl⟩ := h
    unfold file.Read at hres
    rcases open_exists_cases f he with h0 | ⟨f0, r, h1, hb, -⟩
    · simp [h0] at hres
    · simp only [h1, hb, Option.some.injEq] at hres
      subst hres
      exact ⟨_, rfl⟩
  | Seek offset whence =>
    simp only [file.call, SeekT_eq, Option.map_eq_some'] at h
    obtain ⟨res, hres, rfl⟩ := h
    unfold file.Seek at hres
    rcases open_exists_cases f he with h0 | ⟨f0, r, h1, hb, -⟩
    · simp [h0] at hres
    · simp only [h1, hb, Option.some.injEq] at hres
      subst hres
      exact ⟨_, rfl⟩
  | Size =>
    simp only [file.call, SizeT_eq, Option.map_eq_some'] at h
    obtain ⟨⟨f0, n⟩, hres, rfl⟩ := h
    obtain ⟨r, hr, -⟩ := Size_exists_result f f0 n (hd rfl) he hres
    exact ⟨r, hr⟩

theorem runCalls_snd_nil (cs : List Call) :
    ∀ (f : file) (r : Reader), f.buffer = some r → (runCalls f cs).2 = [] := by
  induction cs with
  | nil =>
    intro f r _
    rfl
  | cons c cs ih =>
    intro f r hb
    have ht := call_snd_nil f c r hb
    unfold runCalls
    rcases hc : f.call c with ⟨o, t⟩
    rw [hc] at ht
    simp only at ht
    subst ht
    cases o with
    | none => rfl
    | some f0 =>
      have h0 : (f.call c).1 = some f0 := by rw [hc]
      obtain ⟨r0, hr0, -⟩ := (call_evolves f f0 c h0).2.2.2.2.1 r hb
      simp only [List.nil_append]
      exact ih f0 r0 hr0

theorem runCalls_snd (cs : List Call) :
    ∀ f : file, (runCalls f cs).2 = [] ∨ (runCalls f cs).2 = [f.name] := by
  induction cs with
  | nil =>
    intro f
    exact Or.inl rfl
  | cons c cs ih =>
    intro f
    have ht := call_snd f c
    unfold runCalls
    rcases hc : f.call c with ⟨o, t⟩
    rw [hc] at ht
    simp only at ht
    cases o with
    | none =>
      rcases ht with h | ⟨h, -⟩
      · exact Or.inl h
      · exact Or.inr h
    | some f0 =>
      have h0 : (f.call c).1 = some f0 := by rw [hc]
      have hn : f0.name = f.name := (call_evolves f f0 c h0).1
      simp only
      rcases ht with h | ⟨h, he, -, hd⟩
      · subst h
        simp only [List.nil_append]
        rw [← hn]
        exact ih f0
      · obtain ⟨r0, hr0⟩ := call_fetch_buffer f f0 c he hd h0
        rw [runCalls_snd_nil cs f0 r0 hr0, h]
        exact Or.inr rfl

/-- C18: over any sequence of `Read`, `Seek` and `Size` calls on a handle the
log of `MustBytes` calls holds at most one entry, for the handle's own name.
A call that fetches finds the flag set and the buffer absent and leaves a
buffer behind, after which no call fetches. From a handle that holds a reader
no call fetches: the reader stays over the same bytes, and `Read`, `Seek` and
`Size` are the reader's own `Read`, `Seek` and `Size` at its current index.
The logged methods return what the plain methods return. -/
theorem fetch_at_most_once (f : file) (cs : List Call) :
    (runCalls f cs).2.length ≤ 1 ∧
    (∀ x ∈ (runCalls f cs).2, x = f.name) ∧
    (∀ c : Call, (f.call c).2 ≠ [] →
      f.exists_ = true ∧ f.buffer = none ∧
      ∀ f1, (f.call c).1 = some f1 →
        (∃ r, f1.buffer = some r) ∧ (runCalls f1 cs).2 = []) ∧
    (∀ r, f.buffer = some r →
      (runCalls f cs).2 = [] ∧
      (∀ f1, (runCalls f cs).1 = some f1 → ∃ r1, f1.buffer = some r1 ∧ r1.s = r.s) ∧
      (f.exists_ = true →
        (∀ p, f.Read p =
          some ({ f with buffer := some (r.Read p).1 }, (r.Read p).2.1, (r.Read p).2.2.1,
            (r.Read p).2.2.2)) ∧
        (∀ offset whence, f.Seek offset whence =
          some ({ f with buffer := some (r.Seek offset whence).1 },
            (r.Seek offset whence).2.1, (r.Seek offset whence).2.2)) ∧
        (f.IsDir = false → f.Size = some (f, r.Size)))) ∧
    ((∀ p, (f.ReadT p).1 = f.Read p) ∧
      (∀ offset whence, (f.SeekT offset whence).1 = f.Seek offset whence) ∧
      f.SizeT.1 = f.Size) := by
  refine ⟨?_, ?_, ?_, ?_, ?_⟩
  · rcases runCalls_snd cs f with h | h <;> rw [h] <;> simp
  · intro x hx
    rcases runCalls_snd cs f with h | h
    · rw [h] at hx
      cases hx
    · rw [h] at hx
      simpa using hx
  · intro c hne
    rcases call_snd f c with h | ⟨-, he, hb, hd⟩
    · exact absurd h hne
    · refine ⟨he, hb, fun f1 h1 => ?_⟩
      obtain ⟨r, hr⟩ := call_fetch_buffer f f1 c he hd h1
      exact ⟨⟨r, hr⟩, runCalls_snd_nil cs f1 r hr⟩
  · intro r hb
    refine ⟨runCalls_snd_nil cs f r hb,
      fun f1 h1 => (runCalls_evolves cs f f1 h1).2.2.2.2.1 r hb, fun he => ⟨?_, ?_, ?_⟩⟩
    · intro p
      unfold file.Read
      rw [open_of_exists f he]
      simp [hb]
    · intro offset whence
      unfold file.Seek
      rw [open_of_exists f he]
      simp [hb]
    · intro hd
      unfold file.Size
      rw [open_of_exists f he]
      simp [hd, hb]
  · refine ⟨fun p => ?_, fun offset whence => ?_, ?_⟩
    · rw [ReadT_eq]
    · rw [SeekT_eq]
    · rw [SizeT_eq]

/-- The first scenario, logged: `Size`, two reads and a seek on the leaf
`a/b.txt` fetch its bytes once, on the first call. -/
theorem scenario_leaf_fetch_log :
    runCalls scenarioLeafHandle [Call.Size, Call.Read [0, 0], Call.Seek 0 0, Call.Read [0]] =
      (some { scenarioLeafHandle with buffer := some ⟨[104, 105, 33], 1⟩ }, ["a/b.txt"]) ∧
    (scenarioLeafHandle.call Call.Size).2 = ["a/b.txt"] :=
  ⟨rfl, rfl⟩

/-! ## What listings hold -/

theorem Handle_listed (f : file) (hf : Handle f) :
    (f.exists_ = true ∨ f.IsDir = true) ∧
    (∀ c ∈ elems f.children, c ∈ f.dir.group.Entries) := by
  have step : ∀ f f1 : file, Evolves f f1 →
      ((f.exists_ = true ∨ f.IsDir = true) ∧
        (∀ c ∈ elems f.children, c ∈ f.dir.group.Entries)) →
      (f1.exists_ = true ∨ f1.IsDir = true) ∧
        (∀ c ∈ elems f1.children, c ∈ f1.dir.group.Entries) := by
    intro f f1 hev ih
    obtain ⟨-, hd, he, hc, -, -⟩ := hev
    have hdir : f1.IsDir = f.IsDir := by
      unfold file.IsDir
      rw [hc]
    rw [he, hdir, hc, hd]
    exact ih
  induction hf with
  | opened P g name f h =>
    obtain ⟨rfl, hne⟩ := Open_some P g name f h
    constructor
    · by_cases hp : name ∈ g.Entries
      · exact Or.inl (by simp [hp])
      · right
        have hd : descendants g.Entries name ≠ [] := fun hd => hne ⟨hp, hd⟩
        rw [IsDir_iff]
        cases hl : descendants g.Entries name with
        | nil => exact absurd hl hd
        | cons c cs => exact ⟨c, cs, rfl⟩
    · intro c hc
      exact ((mem_descendants g.Entries name c).1 hc).1
  | listed f count r c _ hr hc ih =>
    unfold file.Readdir at hr
    split at hr
    · simp at hr
    · simp only [Prod.mk.injEq, Option.some.injEq, and_true] at hr
      subst hr
      rw [List.mem_map] at hc
      obtain ⟨c', hc', rfl⟩ := hc
      have hmem : c' ∈ f.dir.group.Entries := ih.2 c' hc'
      constructor
      · left
        show (list ⟨f.dir.group, c'⟩).1 = true
        rw [list_fst]
        simpa using hmem
      · intro x hx
        have hx' : x ∈ elems (list ⟨f.dir.group, c'⟩).2 := hx
        rw [list_elems] at hx'
        exact ((mem_descendants f.dir.group.Entries c' x).1 hx').1
  | read f p res _ hr ih => exact step f res.1 (Read_evolves f p res hr) ih
  | seek f offset whence res _ hr ih =>
    exact step f res.1 (Seek_evolves f offset whence res hr) ih
  | closed f _ ih => exact ih
  | sized f res _ hr ih => exact step f res.1 (Size_evolves f res hr) ih

theorem Size_ne_neg_one (f : file) (h : f.exists_ = true ∨ f.IsDir = true)
    (res : file × Int) (hres : f.Size = some res) : res.2 ≠ -1 := by
  cases hd : f.IsDir with
  | true =>
    rw [Size_of_IsDir f hd] at hres
    simp only [Option.some.injEq] at hres
    subst hres
    show (0 : Int) ≠ -1
    decide
  | false =>
    have he : f.exists_ = true := by
      rcases h with h | h
      · exact h
      · rw [hd] at h
        cases h
    obtain ⟨r, -, hn⟩ := Size_exists_result f res.1 res.2 hd he hres
    rw [hn]
    omega

/-- C19: when `Open(p)` succeeds the handle has the existence flag set or a
non-empty children list. Every entry `Readdir` returns on it is named by an
entry of the namespace and has its existence flag set, so no path outside the
namespace, such as a directory that is only implied, is ever listed. On every
handle a caller can hold, obtained from `Open` or from `Readdir` and whatever
was called on it since, `Size` never returns `-1`. -/
theorem Open_Readdir_entries_exist (P : PathPkg) (g : FileGroup) (p : String) (f : file)
    (h : g.Open P p = (some f, none)) :
    (f.exists_ = true ∨ ∃ c cs, f.children = some (c :: cs)) ∧
    (∀ (count : Int) (r : List file), f.Readdir count = (some r, none) →
      ∀ e ∈ r, e.name ∈ g.Entries ∧ e.exists_ = true) ∧
    (∀ (count : Int) (r : List file), f.Readdir count = (some r, none) →
      ∀ d : String, d ∉ g.Entries → ∀ e ∈ r, e.name ≠ d) ∧
    (∀ (count : Int) (r : List file), f.Readdir count = (some r, none) →
      ∀ e ∈ r, ∀ res, e.Size = some res → res.2 ≠ -1) ∧
    (∀ res, f.Size = some res → res.2 ≠ -1) ∧
    (∀ h : file, Handle h →
      (h.exists_ = true ∨ h.IsDir = true) ∧ ∀ res, h.Size = some res → res.2 ≠ -1) := by
  have hf : Handle f := Handle.opened P g p f h
  have hgrp : f.dir.group = g := by rw [(Open_some P g p f h).1]
  have hentries : ∀ (count : Int) (r : List file), f.Readdir count = (some r, none) →
      ∀ e ∈ r, e.name ∈ g.Entries ∧ e.exists_ = true := by
    intro count r hr e he
    have hl := (Handle_listed f hf).2
    unfold file.Readdir at hr
    split at hr
    · simp at hr
    · simp only [Prod.mk.injEq, Option.some.injEq, and_true] at hr
      subst hr
      rw [List.mem_map] at he
      obtain ⟨c, hc, rfl⟩ := he
      have hmem : c ∈ g.Entries := by
        rw [← hgrp]
        exact hl c hc
      refine ⟨hmem, ?_⟩
      show (list ⟨f.dir.group, c⟩).1 = true
      rw [list_fst, hgrp]
      simpa using hmem
  refine ⟨?_, hentries, ?_, ?_, ?_, ?_⟩
  · rw [← IsDir_iff]
    exact (Handle_listed f hf).1
  · intro count r hr d hd e he hname
    exact hd (hname ▸ (hentries count r hr e he).1)
  · intro count r hr e he res hres
    exact Size_ne_neg_one e (Or.inl (hentries count r hr e he).2) res hres
  · intro res hres
    exact Size_ne_neg_one f (Handle_listed f hf).1 res hres
  · intro h hh
    exact ⟨(Handle_listed h hh).1, fun res hres =>
      Size_ne_neg_one h (Handle_listed h hh).1 res hres⟩

/-- Witness for C19: `Open("a")` in the first scenario, whose implied
subdirectory `a/c` is not listed. -/
theorem Open_Readdir_entries_exist_witness :
    scenarioGroup.Open cleanPath "a" = (some scenarioRootHandle, none) ∧
    (scenarioRootHandle.Readdir 0).1.map (fun r => r.map (fun e => (e.name, e.exists_))) =
      some [("a/b.txt", true), ("a/c/d.txt", true)] ∧
    (scenarioRootHandle.exists_ = true ∨
      ∃ c cs, scenarioRootHandle.children = some (c :: cs)) ∧
    (∀ (count : Int) (r : List file), scenarioRootHandle.Readdir count = (some r, none) →
      ∀ e ∈ r, e.name ∈ scenarioGroup.Entries ∧ e.exists_ = true) ∧
    (∀ (count : Int) (r : List file), scenarioRootHandle.Readdir count = (some r, none) →
      ∀ d : String, d ∉ scenarioGroup.Entries → ∀ e ∈ r, e.name ≠ d) ∧
    (∀ (count : Int) (r : List file), scenarioRootHandle.Readdir count = (some r, none) →
      ∀ e ∈ r, ∀ res, e.Size = some res → res.2 ≠ -1) ∧
    (∀ res, scenarioRootHandle.Size = some res → res.2 ≠ -1) ∧
    (∀ h : file, Handle h →
      (h.exists_ = true ∨ h.IsDir = true) ∧ ∀ res, h.Size = some res → res.2 ≠ -1) :=
  ⟨rfl, rfl, Open_Readdir_entries_exist cleanPath scenarioGroup "a" scenarioRootHandle rfl⟩

/-! ## Listings of listed entries -/

theorem descendants_child (N : List String) (p c : String) (hc : c ∈ descendants N p) :
    descendants N c = (descendants N p).filter (fun e => HasPrefix e (c ++ "/")) := by
  obtain ⟨-, t, rfl⟩ := (mem_descendants N p c).1 hc
  unfold descendants
  rw [List.filter_filter]
  apply List.filter_congr
  intro e _
  cases h1 : HasPrefix e (p ++ "/" ++ t ++ "/") with
  | false => rfl
  | true =>
    obtain ⟨u, rfl⟩ := (HasPrefix_iff e (p ++ "/" ++ t ++ "/")).1 h1
    have h2 : HasPrefix (p ++ "/" ++ t ++ "/" ++ u) (p ++ "/") = true :=
      (HasPrefix_iff _ _).2 ⟨t ++ "/" ++ u, by simp [String.append_assoc]⟩
    rw [h2]
    rfl

theorem Readdir_names (f : file) (count : Int) (r : List file)
    (h : f.Readdir count = (some r, none)) :
    r.map (fun x => x.name) = elems f.children ∧
      ∀ e ∈ r, ∃ c ∈ elems f.children, e = childHandle f c := by
  unfold file.Readdir at h
  split at h
  · simp at h
  · simp only [Prod.mk.injEq, Option.some.injEq, and_true] at h
    subst h
    constructor
    · rw [List.map_map]
      exact List.map_id _
    · intro e he
      rw [List.mem_map] at he
      obtain ⟨c, hc, rfl⟩ := he
      exact ⟨c, hc, rfl⟩

/-- C20: for a child `c` among the children `list` returns for `p`, the
children `list` returns for `c` are a sub-sequence, in the same relative
order, of the children returned for `p`. Hence for the handle of `Open(p)` the
paths `Readdir` lists on any entry of its own listing are a sub-sequence of the
paths it lists itself. -/
theorem children_of_child_sublist (P : PathPkg) (g : FileGroup) (p c : String)
    (hc : c ∈ elems (list ⟨g, p⟩).2) :
    (elems (list ⟨g, c⟩).2).Sublist (elems (list ⟨g, p⟩).2) ∧
    (∀ x ∈ elems (list ⟨g, c⟩).2, x ∈ elems (list ⟨g, p⟩).2) ∧
    (∀ (f : file) (count : Int) (r : List file), g.Open P p = (some f, none) →
      f.Readdir count = (some r, none) →
      ∀ e ∈ r, ∀ (count1 : Int) (r1 : List file), e.Readdir count1 = (some r1, none) →
        (r1.map (fun x => x.name)).Sublist (r.map (fun x => x.name)) ∧
        ∀ x ∈ r1, ∃ y ∈ r, y.name = x.name) := by
  have hsub : ∀ c' : String, c' ∈ descendants g.Entries p →
      (descendants g.Entries c').Sublist (descendants g.Entries p) := by
    intro c' hc'
    rw [descendants_child g.Entries p c' hc']
    exact List.filter_sublist _
  rw [list_elems] at hc
  refine ⟨?_, ?_, ?_⟩
  · rw [list_elems, list_elems]
    exact hsub c hc
  · rw [list_elems, list_elems]
    exact fun x hx => (hsub c hc).subset hx
  · intro f count r hopen hr e he count1 r1 hr1
    obtain ⟨hnames, hform⟩ := Readdir_names f count r hr
    obtain ⟨c', hc', rfl⟩ := hform e he
    obtain ⟨hnames1, -⟩ := Readdir_names (childHandle f c') count1 r1 hr1
    obtain ⟨rfl, -⟩ := Open_some P g p f hopen
    have hc'' : c' ∈ descendants g.Entries p := hc'
    have hch : elems (childHandle ⟨p, ⟨g, P.Dir p⟩, none, some (descendants g.Entries p),
        decide (p ∈ g.Entries)⟩ c').children = descendants g.Entries c' := by
      show elems (list ⟨g, c'⟩).2 = descendants g.Entries c'
      rw [list_elems]
    have hs : (r1.map (fun x => x.name)).Sublist (r.map (fun x => x.name)) := by
      rw [hnames, hnames1, hch]
      exact hsub c' hc''
    refine ⟨hs, fun x hx => ?_⟩
    have hx1 : x.name ∈ r1.map (fun x => x.name) := List.mem_map.2 ⟨x, hx, rfl⟩
    obtain ⟨y, hy, hyx⟩ := List.mem_map.1 (hs.subset hx1)
    exact ⟨y, hy, hyx⟩

/-- Witness for C20: in `nestedGroup` the children of `a/b`, a child of `a`. -/
theorem children_of_child_sublist_witness :
    "a/b" ∈ elems (list ⟨nestedGroup, "a"⟩).2 ∧
    elems (list ⟨nestedGroup, "a"⟩).2 = ["a/x", "a/b/c", "a/b", "a/b/c/d"] ∧
    elems (list ⟨nestedGroup, "a/b"⟩).2 = ["a/b/c", "a/b/c/d"] ∧
    (elems (list ⟨nestedGroup, "a/b"⟩).2).Sublist (elems (list ⟨nestedGroup, "a"⟩).2) ∧
    (∀ x ∈ elems (list ⟨nestedGroup, "a/b"⟩).2, x ∈ elems (list ⟨nestedGroup, "a"⟩).2) ∧
    (∀ (f : file) (count : Int) (r : List file),
      nestedGroup.Open cleanPath "a" = (some f, none) →
      f.Readdir count = (some r, none) →
      ∀ e ∈ r, ∀ (count1 : Int) (r1 : List file), e.Readdir count1 = (some r1, none) →
        (r1.map (fun x => x.name)).Sublist (r.map (fun x => x.name)) ∧
        ∀ x ∈ r1, ∃ y ∈ r, y.name = x.name) :=
  ⟨by decide, by decide, by decide,
    children_of_child_sublist cleanPath nestedGroup "a" "a/b" (by decide)⟩

end Mewn
